import Mathlib

/-!
# ThreadPool_Bars: a shallow embedding of the pool, the counter and the bars

The development follows the C++ sources:

* `include/ThreadPool.hpp`, `src/ThreadPool.cpp`  (namespace `ThreadPool`, class `Pool`)
* `include/Progress.hpp`, `src/Progress.cpp`      (namespace `Progress`, `Counter` and `Bar`)
* `include/ThreadPool_Bars.hpp`, `src/ThreadPool_Bars.cpp`  (class `Bars`, the two hooks)

Arithmetic.  `double` is IEEE 754 binary64 with round-to-nearest, ties-to-even,
every single operation rounded (as on x86-64 and AArch64).  The finite values
are rationals; `Binary64.rnd` is the rounding of an exact result, and `Dbl`
adds the infinities and NaN.  Zero carries no sign: in this program a zero
divisor is always `+0`.  `int` and `size_t` are integers taken modulo `2^32`
and `2^64`.

Concurrency.  The queue and `processing` are only touched under `queue_lock`;
a critical section is one step of a state machine, and a run is a sequence of
steps.  The two hooks of `Bars` are taken as steps in the same way.
-/

namespace Binary64

/-- Position of the highest set bit of `n` (`0` for `n < 2`); the first
argument bounds the recursion and is `n` itself in `ilog2`. -/
def ilog2Aux : Nat → Nat → Nat
  | 0, _ => 0
  | fuel + 1, n => if n < 2 then 0 else ilog2Aux fuel (n / 2) + 1

/-- Floor of the binary logarithm of a natural number (`0` at `0`). -/
def ilog2 (n : Nat) : Nat := ilog2Aux n n

/-- Floor of the binary logarithm of a positive rational: the `e` with
`2^e ≤ q < 2^(e+1)`.  The difference of the bit positions of numerator and
denominator is either `e` or `e + 1`. -/
def exponent (q : ℚ) : ℤ :=
  let e0 : ℤ := (ilog2 q.num.natAbs : ℤ) - (ilog2 q.den : ℤ)
  if (2 : ℚ) ^ e0 ≤ q then e0 else e0 - 1

/-- Spacing of the binary64 values around a non-negative `q`: 53 significant
bits in the binade of `q`, and the subnormal spacing `2^-1074` below `2^-1022`. -/
def ulp (q : ℚ) : ℚ := (2 : ℚ) ^ (max (exponent q) (-1022) - 52)

/-- Nearest integer, a tie going to the even neighbour. -/
def roundHalfEven (x : ℚ) : ℤ :=
  let f := ⌊x⌋
  let r := x - f
  if r < 1 / 2 then f else if 1 / 2 < r then f + 1 else if f % 2 = 0 then f else f + 1

/-- Nearest binary64 value of a non-negative rational (exponent unbounded above). -/
def rndAbs (x : ℚ) : ℚ := roundHalfEven (x / ulp x) * ulp x

/-- Round to nearest, ties to even, onto the binary64 grid; the exponent is not
bounded above here, `Dbl.round` turns a result of magnitude `2^1024` into an
infinity. -/
def rnd (q : ℚ) : ℚ := if q < 0 then -rndAbs (-q) else rndAbs q

/-- The rational is a (finite) binary64 value. -/
def IsDouble (q : ℚ) : Prop := rnd q = q

end Binary64

/-- A value of the C++ type `double`. -/
inductive Dbl where
  | fin (q : ℚ)
  | pinf
  | ninf
  | nan
  deriving DecidableEq

namespace Dbl

/-- Result of an operation whose exact value is `q`. -/
def round (q : ℚ) : Dbl :=
  let r := Binary64.rnd q
  if (2 : ℚ) ^ (1024 : ℕ) ≤ r then pinf
  else if r ≤ -(2 : ℚ) ^ (1024 : ℕ) then ninf
  else fin r

/-- Binary `+` on `double`. -/
def add : Dbl → Dbl → Dbl
  | nan, _ => nan
  | _, nan => nan
  | fin a, fin b => round (a + b)
  | pinf, ninf => nan
  | ninf, pinf => nan
  | pinf, _ => pinf
  | _, pinf => pinf
  | ninf, _ => ninf
  | _, ninf => ninf

/-- Binary `*` on `double`. -/
def mul : Dbl → Dbl → Dbl
  | nan, _ => nan
  | _, nan => nan
  | fin a, fin b => round (a * b)
  | fin a, pinf => if a = 0 then nan else if 0 < a then pinf else ninf
  | fin a, ninf => if a = 0 then nan else if 0 < a then ninf else pinf
  | pinf, fin b => if b = 0 then nan else if 0 < b then pinf else ninf
  | ninf, fin b => if b = 0 then nan else if 0 < b then ninf else pinf
  | pinf, pinf => pinf
  | ninf, ninf => pinf
  | pinf, ninf => ninf
  | ninf, pinf => ninf

/-- Binary `/` on `double`; a zero divisor is `+0`. -/
def div : Dbl → Dbl → Dbl
  | nan, _ => nan
  | _, nan => nan
  | fin a, fin b =>
      if b = 0 then (if a = 0 then nan else if 0 < a then pinf else ninf)
      else round (a / b)
  | fin _, pinf => fin 0
  | fin _, ninf => fin 0
  | pinf, fin b => if 0 ≤ b then pinf else ninf
  | ninf, fin b => if 0 ≤ b then ninf else pinf
  | pinf, pinf => nan
  | pinf, ninf => nan
  | ninf, pinf => nan
  | ninf, ninf => nan

/-- The comparison `<` on `double` (false as soon as one side is NaN). -/
def lt : Dbl → Dbl → Bool
  | nan, _ => false
  | _, nan => false
  | fin a, fin b => decide (a < b)
  | ninf, ninf => false
  | ninf, _ => true
  | _, ninf => false
  | pinf, _ => false
  | _, pinf => true

/-- Conversion of an integer (`int`, `long`, `size_t`) to `double`. -/
def ofInt (n : ℤ) : Dbl := round n

/-- Conversion of a `double` to `int`: truncation toward zero.  Outside the
range of `int` (and for NaN) C++ leaves the result undefined; the x86-64
conversion then yields `INT_MIN`. -/
def toInt32 : Dbl → ℤ
  | fin q =>
      let t : ℤ := if 0 ≤ q then ⌊q⌋ else -⌊-q⌋
      if -(2 : ℤ) ^ (31 : ℕ) ≤ t ∧ t < (2 : ℤ) ^ (31 : ℕ) then t else -(2 : ℤ) ^ (31 : ℕ)
  | _ => -(2 : ℤ) ^ (31 : ℕ)

end Dbl

namespace Progress

/-- The class `Progress::Counter`: `long count; double step;`.  `count` starts
at `0` and is only ever incremented, so it is a natural number. -/
structure Counter where
  count : ℕ
  step : Dbl
  deriving DecidableEq

namespace Counter

/-- Constructor `Counter(long steps = 1) : count{0}, step{1./steps}`. -/
def init (steps : ℤ := 1) : Counter := ⟨0, Dbl.div (Dbl.fin 1) (Dbl.ofInt steps)⟩

/-- The conversion `operator double () const {return count*step;}`. -/
def toDouble (c : Counter) : Dbl := Dbl.mul (Dbl.ofInt c.count) c.step

/-- The conversion `operator bool () const {return operator double() < 1.0;}`:
true while the counter has not reached the total. -/
def toBool (c : Counter) : Bool := Dbl.lt c.toDouble (Dbl.fin 1)

/-- The increment `operator++ () {++count; return *this;}`. -/
def incr (c : Counter) : Counter := { c with count := c.count + 1 }

/-- The method `add_step () {step /= 1.0 + step;}`. -/
def add_step (c : Counter) : Counter :=
  { c with step := Dbl.div c.step (Dbl.add (Dbl.fin 1) c.step) }

/-- The method `get_step () const {return step;}`. -/
def get_step (c : Counter) : Dbl := c.step

end Counter

/-- One call made on a counter: `++counter` or `counter.add_step()`. -/
inductive CounterOp where
  | advance
  | grow
  deriving DecidableEq

namespace Counter

/-- The counter after one call. -/
def apply (c : Counter) : CounterOp → Counter
  | CounterOp.advance => c.incr
  | CounterOp.grow => c.add_step

/-- The counter after a sequence of calls, made in the order of the list. -/
def run (c : Counter) (ops : List CounterOp) : Counter := ops.foldl apply c

end Counter

/-- One character cell between the two borders of a bar: `bar[i]` (the eight
block glyphs `bar[0] .. bar[7]`, `bar[7]` being the full block) or a blank. -/
inductive Cell where
  | glyph (i : ℤ)
  | space
  deriving DecidableEq

/-- What `Bar` writes: the percentage after `'\r' << setw(5)`, the number of
iterations of the loop printing `bar[7]`, the index of the single `bar[part]`,
and the number of iterations of the loop printing `' '`. -/
structure BarLine where
  perc : ℤ
  full : ℕ
  part : ℤ
  spaces : ℕ
  deriving DecidableEq

/-- The cells printed between `"% │"` and `"│ "`, in order. -/
def BarLine.cells (l : BarLine) : List Cell :=
  List.replicate l.full (Cell.glyph 7) ++ [Cell.glyph l.part] ++ List.replicate l.spaces Cell.space

/-- Arithmetic on `int` (32 bits): a result out of range wraps around (signed
overflow is undefined in C++; this is the two's-complement result). -/
def wrap32 (n : ℤ) : ℤ := (n + (2 : ℤ) ^ (31 : ℕ)) % (2 : ℤ) ^ (32 : ℕ) - (2 : ℤ) ^ (31 : ℕ)

/-- The statement `fraction = min(max(0.0, fraction), 1.0)`, with
`max(a, b) = (a < b) ? b : a` and `min(a, b) = (b < a) ? b : a`. -/
def clamp (fraction : Dbl) : Dbl :=
  let m := if Dbl.lt (Dbl.fin 0) fraction then fraction else Dbl.fin 0
  if Dbl.lt (Dbl.fin 1) m then Dbl.fin 1 else m

/-- The statement `int perc = fraction * 100 + 0.5` on the clamped fraction. -/
def barPerc (fraction : Dbl) : ℤ :=
  Dbl.toInt32 (Dbl.add (Dbl.mul (clamp fraction) (Dbl.ofInt 100)) (Dbl.fin (1 / 2)))

/-- The statement `int fill = fraction * (8*width-1) + 0.5` on the clamped
fraction, before `fill /= 8`. -/
def barFill (fraction : Dbl) (width : ℤ) : ℤ :=
  Dbl.toInt32 (Dbl.add
    (Dbl.mul (clamp fraction) (Dbl.ofInt (wrap32 (wrap32 (8 * width) - 1))))
    (Dbl.fin (1 / 2)))

/-- The function `Progress::Bar(double fraction, int width=40)`: `part = fill % 8`,
`fill /= 8` (both truncating), `fill` times `bar[7]`, once `bar[part]`, and
`width - fill - 1` blanks. -/
def Bar (fraction : Dbl) (width : ℤ := 40) : BarLine :=
  let fill := barFill fraction width
  { perc := barPerc fraction
    full := (Int.tdiv fill 8).toNat
    part := Int.tmod fill 8
    spaces := (wrap32 (wrap32 (width - Int.tdiv fill 8) - 1)).toNat }

end Progress

namespace ThreadPool

open Progress

/-- The type `std::thread::id`. -/
abbrev ThreadId := ℕ

/-- The id `thread::id const id0{}` that keys the bar of the total. -/
def id0 : ThreadId := 0

/-- The type `Bars::List = std::map<Thread_ID, Thread_Bar>`, entries in
ascending key order; of a `Thread_Bar` only the counter is kept (the message
is not). -/
abbrev BarMap := List (ThreadId × Counter)

/-- Lookup `bars.at(id)` / `bars.find(id)`. -/
def mapFind : BarMap → ThreadId → Option Counter
  | [], _ => none
  | (k, c) :: m, id => if k = id then some c else mapFind m id

/-- Assignment `bars[id] = c`: replaces the entry of `id` or inserts it at its
place in the key order. -/
def mapSet : BarMap → ThreadId → Counter → BarMap
  | [], id, c => [(id, c)]
  | (k, c0) :: m, id, c =>
      if id < k then (id, c) :: (k, c0) :: m
      else if id = k then (k, c) :: m
      else (k, c0) :: mapSet m id c

/-- The fields of the class `Bars` that the hooks read and write: `bars`,
`tracking`, and for `tracker` the number of times `start()` has spawned the
tracker thread. -/
structure Bars where
  bars : BarMap
  tracking : Bool
  starts : ℕ
  deriving DecidableEq

namespace Bars

/-- State after the constructor `Bars::Bars(Pool &pool)`: `tracking{false}`, no
bar, no tracker thread. -/
def attach : Bars := ⟨[], false, 0⟩

/-- The method `Bars::get_bar(id)`: the bar of `id`, created with the default
counter `Counter()` when there is none. -/
def get_bar (b : Bars) (id : ThreadId) : Bars × Counter :=
  match mapFind b.bars id with
  | some c => (b, c)
  | none => ({ b with bars := mapSet b.bars id Counter.init }, Counter.init)

/-- The counter of the total bar, `get<0>(get_bar(id0))`. -/
def total (b : Bars) : Counter := (b.get_bar id0).2

/-- The enqueue hook installed by the constructor: with `tracking` set it calls
`add_step()` on the total counter, otherwise it sets `tracking` and calls
`start()`. -/
def hook_enqueue (b : Bars) : Bars :=
  let (b1, c) := b.get_bar id0
  if b1.tracking then { b1 with bars := mapSet b1.bars id0 c.add_step }
  else { b1 with tracking := true, starts := b1.starts + 1 }

/-- The dequeue hook installed by the constructor:
`tracking = ++get<0>(get_bar(id0));`, the flag taking the `operator bool` of the
incremented counter.  (The bar of the total exists by then: the enqueue hook of
the same task has created it.) -/
def hook_dequeue (b : Bars) : Bars :=
  let (b1, c) := b.get_bar id0
  { b1 with bars := mapSet b1.bars id0 c.incr, tracking := c.incr.toBool }

/-- The method `Bars::new_counter(n, message)` called by the thread `tid`. -/
def new_counter (b : Bars) (tid : ThreadId) (n : ℤ) : Bars :=
  { (b.get_bar tid).1 with bars := mapSet (b.get_bar tid).1.bars tid (Counter.init n) }

/-- The end of the tracker thread in `Bars::start()`: `bars.clear()`. -/
def clear (b : Bars) : Bars := { b with bars := [] }

end Bars

/-- What happens to a `Bars` object: a call of the enqueue hook, a call of the
dequeue hook, the `bars.clear()` of the ending tracker thread.  Each is taken
as one step. -/
inductive BarsEvent where
  | enqueue
  | dequeue
  | cleared
  deriving DecidableEq

namespace Bars

/-- Effect of one event. -/
def step (b : Bars) : BarsEvent → Bars
  | BarsEvent.enqueue => b.hook_enqueue
  | BarsEvent.dequeue => b.hook_dequeue
  | BarsEvent.cleared => b.clear

/-- Effect of a sequence of events, oldest first. -/
def run (b : Bars) (evs : List BarsEvent) : Bars := evs.foldl step b

/-- No task has been submitted since the bars were last cleared (or since the
constructor): the next enqueue is the first submission of its round. -/
def noEnqueueSinceClear (history : List BarsEvent) : Bool :=
  (history.reverse.takeWhile (fun e => decide (e ≠ BarsEvent.cleared))).all
    (fun e => decide (e ≠ BarsEvent.enqueue))

end Bars

/-- Control state of one thread of `threads`: blocked in or about to enter
`queued.wait` (`idle`), between `tasks.pop()` and the end of `task()`
(`running`), or returned from the lambda (`exited`). -/
inductive Worker where
  | idle
  | running (task : ℕ)
  | exited
  deriving DecidableEq

/-- The task a thread is executing, if any. -/
def Worker.task : Worker → Option ℕ
  | Worker.running t => some t
  | _ => none

/-- The fields of the class `Pool` guarded by `queue_lock`; a task is known by
a number, the front of `tasks` is the head of the list, `processing` is a
`size_t`.  The list `finished` records the tasks whose body has run, in order
of completion. -/
structure Pool where
  done : Bool
  processing : ℕ
  tasks : List ℕ
  threads : List Worker
  finished : List ℕ
  deriving DecidableEq

/-- The steps of the pool, each one critical section under `queue_lock`. -/
inductive PoolEvent where
  | submit (task : ℕ)
  | wake (i : ℕ)
  | finish (i : ℕ)
  | shutdown
  deriving DecidableEq

/-- Arithmetic on `size_t` (64 bits): the value modulo `2^64`. -/
def wrap64 (n : ℤ) : ℕ := (n % (2 : ℤ) ^ (64 : ℕ)).toNat

namespace Pool

/-- State after the constructor `Pool::Pool(nthreads)`: `done{false}`,
`processing{0}`, an empty queue and `nthreads` threads waiting. -/
def init (nthreads : ℕ) : Pool :=
  { done := false, processing := 0, tasks := [], threads := List.replicate nthreads Worker.idle,
    finished := [] }

/-- The critical section of `Pool::enqueue`: `tasks.emplace(move(task))`. -/
def enqueue (p : Pool) (task : ℕ) : Pool := { p with tasks := p.tasks ++ [task] }

/-- Thread `i` leaves `queued.wait(lock, [] { return !tasks.empty() || done; })`
and runs the rest of the block: `if (done) return;` otherwise
`task = tasks.front(); tasks.pop(); ++processing;`.  No result while the
predicate is false (the thread stays blocked) or when the thread is not idle. -/
def wake (p : Pool) (i : ℕ) : Option Pool :=
  match p.threads[i]? with
  | some Worker.idle =>
      if p.done then some { p with threads := p.threads.set i Worker.exited }
      else
        match p.tasks with
        | [] => none
        | t :: rest =>
            some { p with tasks := rest, processing := wrap64 (p.processing + 1),
                          threads := p.threads.set i (Worker.running t) }
  | _ => none

/-- Thread `i` has returned from `task()` and runs the second block:
`hook_dequeue()` if set, then `--processing`. -/
def finish (p : Pool) (i : ℕ) : Option Pool :=
  match p.threads[i]? with
  | some (Worker.running t) =>
      some { p with processing := wrap64 (p.processing - 1),
                    threads := p.threads.set i Worker.idle,
                    finished := p.finished ++ [t] }
  | _ => none

/-- The first statement of the destructor `Pool::~Pool`: `done = true`. -/
def shutdown (p : Pool) : Pool := { p with done := true }

/-- The method `Pool::wait()`: returns (in the state unchanged) when
`tasks.empty() && !processing` holds, and stays blocked otherwise. -/
def wait (p : Pool) : Option Pool :=
  if p.tasks.isEmpty && p.processing == 0 then some p else none

/-- One step of the pool. -/
def step (p : Pool) : PoolEvent → Option Pool
  | PoolEvent.submit t => some (p.enqueue t)
  | PoolEvent.wake i => p.wake i
  | PoolEvent.finish i => p.finish i
  | PoolEvent.shutdown => some p.shutdown

/-- A run: the steps taken one after the other; no result when one of them is
not possible in the state reached. -/
def run (p : Pool) : List PoolEvent → Option Pool
  | [] => some p
  | e :: evs => (p.step e).bind (fun q => run q evs)

/-- The tasks submitted by a sequence of events, in order. -/
def submitted : List PoolEvent → List ℕ
  | [] => []
  | PoolEvent.submit t :: evs => t :: submitted evs
  | _ :: evs => submitted evs

/-- The tasks the threads are executing. -/
def inFlight (p : Pool) : List ℕ := p.threads.filterMap Worker.task

/-- The schedule in which thread 0 takes and finishes the queued tasks one
after the other, one `wake` and one `finish` per task. -/
def serve : List ℕ → List PoolEvent
  | [] => []
  | _ :: ts => PoolEvent.wake 0 :: PoolEvent.finish 0 :: serve ts

end Pool

end ThreadPool

namespace ThreadPool

open Progress

/-- What one call of `Bars::print` writes: one line per bar, the total first,
and the number of lines the final `"\33[" << bars.size() << 'F'` moves the
cursor up. -/
structure Frame where
  lines : List BarLine
  up : ℕ
  deriving DecidableEq

namespace Bars

/-- The first loop of `Bars::print`, over the entries of `bars` in key order:
`if (id == id0) continue; double partial = get<0>(bar);`
`if (partial < 1) total += step * partial;`. -/
def printLoop (step : Dbl) : BarMap → Dbl → Dbl
  | [], total => total
  | (id, c) :: m, total =>
      if id = id0 then printLoop step m total
      else if Dbl.lt c.toDouble (Dbl.fin 1) then
        printLoop step m (Dbl.add total (Dbl.mul step c.toDouble))
      else printLoop step m total

/-- The value `total` that `Bars::print` hands to `Bar`: `bars[id0]` (which
creates the bar of the total when there is none), `double total = counter;`
`double step = counter.get_step();` and the first loop. -/
def printTotal (b : Bars) : Dbl :=
  printLoop (b.get_bar id0).2.get_step (b.get_bar id0).1.bars (b.get_bar id0).2.toDouble

/-- The second loop of `Bars::print`: `Bar(counter)` for every bar but the
one of `id0`. -/
def printOthers : BarMap → List BarLine
  | [] => []
  | (id, c) :: m => if id = id0 then printOthers m else Bar c.toDouble :: printOthers m

/-- The method `Bars::print()`: the state it leaves and what it writes. -/
def print (b : Bars) : Bars × Frame :=
  ((b.get_bar id0).1,
    { lines := Bar b.printTotal :: printOthers (b.get_bar id0).1.bars
      up := (b.get_bar id0).1.bars.length })

/-- In the words of the specification: the values of exactly those per-worker
counters (every bar but the one of `id0`) whose value is `< 1`, in key order. -/
def inProgress (b : Bars) : List Dbl :=
  ((b.bars.filter (fun e => decide (e.1 ≠ id0))).map (fun e => e.2.toDouble)).filter
    (fun p => Dbl.lt p (Dbl.fin 1))

/-- In the words of the specification, read in `double` arithmetic: the total
counter's own value plus its step times the sum of the values in progress. -/
def claimedTotal (b : Bars) : Dbl :=
  Dbl.add b.total.toDouble (Dbl.mul b.total.get_step (b.inProgress.foldl Dbl.add (Dbl.fin 0)))

end Bars

end ThreadPool

open Progress ThreadPool

/-! ## Properties of the binary64 rounding -/

namespace Binary64

theorem ilog2Aux_spec : ∀ (fuel n : ℕ), n ≤ fuel → 0 < n →
    2 ^ ilog2Aux fuel n ≤ n ∧ n < 2 ^ (ilog2Aux fuel n + 1) := by
  intro fuel
  induction fuel with
  | zero => intro n h1 h2; omega
  | succ f ih =>
    intro n h1 h2
    unfold ilog2Aux
    by_cases h : n < 2
    · rw [if_pos h]
      constructor <;> simp <;> omega
    · rw [if_neg h]
      have hdiv : n / 2 ≤ f := by omega
      have hpos : 0 < n / 2 := by omega
      obtain ⟨a, b⟩ := ih (n / 2) hdiv hpos
      rw [pow_succ] at b
      constructor
      · rw [pow_succ]; omega
      · rw [pow_succ, pow_succ]; omega

theorem ilog2_spec (n : ℕ) (h : 0 < n) : 2 ^ ilog2 n ≤ n ∧ n < 2 ^ (ilog2 n + 1) :=
  ilog2Aux_spec n n le_rfl h

theorem two_zpow_pos (e : ℤ) : (0 : ℚ) < (2 : ℚ) ^ e := zpow_pos (by norm_num) e

theorem exponent_spec (q : ℚ) (hq : 0 < q) :
    (2 : ℚ) ^ exponent q ≤ q ∧ q < (2 : ℚ) ^ (exponent q + 1) := by
  have hn : 0 < q.num := Rat.num_pos.mpr hq
  have hnat : 0 < q.num.natAbs := Int.natAbs_pos.mpr hn.ne'
  obtain ⟨a1, a2⟩ := ilog2_spec q.num.natAbs hnat
  obtain ⟨b1, b2⟩ := ilog2_spec q.den q.den_pos
  have hd : (0 : ℚ) < q.den := by exact_mod_cast q.den_pos
  have hqe : q = (q.num.natAbs : ℚ) / (q.den : ℚ) := by
    have h1 : ((q.num.natAbs : ℤ) : ℚ) = (q.num : ℚ) := by
      rw [Int.natAbs_of_nonneg hn.le]
    have h2 : ((q.num.natAbs : ℕ) : ℚ) = ((q.num.natAbs : ℤ) : ℚ) := (Int.cast_natCast _).symm
    rw [h2, h1]
    exact (Rat.num_div_den q).symm
  set a := ilog2 q.num.natAbs with ha
  set b := ilog2 q.den with hb
  have A1 : (2 : ℚ) ^ (a : ℤ) ≤ (q.num.natAbs : ℚ) := by
    rw [zpow_natCast]; exact_mod_cast a1
  have A2 : (q.num.natAbs : ℚ) < (2 : ℚ) ^ ((a : ℤ) + 1) := by
    have : ((a : ℤ) + 1) = ((a + 1 : ℕ) : ℤ) := by push_cast; rfl
    rw [this, zpow_natCast]; exact_mod_cast a2
  have B1 : (2 : ℚ) ^ (b : ℤ) ≤ (q.den : ℚ) := by
    rw [zpow_natCast]; exact_mod_cast b1
  have B2 : (q.den : ℚ) < (2 : ℚ) ^ ((b : ℤ) + 1) := by
    have : ((b : ℤ) + 1) = ((b + 1 : ℕ) : ℤ) := by push_cast; rfl
    rw [this, zpow_natCast]; exact_mod_cast b2
  -- bounds on q
  have up : q < (2 : ℚ) ^ ((a : ℤ) - b + 1) := by
    have e1 : (2 : ℚ) ^ ((a : ℤ) - b + 1) = (2 : ℚ) ^ ((a : ℤ) + 1) / (2 : ℚ) ^ (b : ℤ) := by
      rw [← zpow_sub₀ (by norm_num : (2 : ℚ) ≠ 0)]; congr 1; ring
    rw [e1, hqe, div_lt_div_iff₀ hd (two_zpow_pos _)]
    calc (q.num.natAbs : ℚ) * (2 : ℚ) ^ (b : ℤ) ≤ (q.num.natAbs : ℚ) * q.den :=
          mul_le_mul_of_nonneg_left B1 (by positivity)
      _ < (2 : ℚ) ^ ((a : ℤ) + 1) * q.den := mul_lt_mul_of_pos_right A2 hd
  have lo : (2 : ℚ) ^ ((a : ℤ) - b - 1) ≤ q := by
    have e1 : (2 : ℚ) ^ ((a : ℤ) - b - 1) = (2 : ℚ) ^ (a : ℤ) / (2 : ℚ) ^ ((b : ℤ) + 1) := by
      rw [← zpow_sub₀ (by norm_num : (2 : ℚ) ≠ 0)]; congr 1; ring
    rw [e1, hqe, div_le_div_iff₀ (two_zpow_pos _) hd]
    calc (2 : ℚ) ^ (a : ℤ) * q.den ≤ (q.num.natAbs : ℚ) * q.den :=
          mul_le_mul_of_nonneg_right A1 hd.le
      _ ≤ (q.num.natAbs : ℚ) * (2 : ℚ) ^ ((b : ℤ) + 1) :=
          mul_le_mul_of_nonneg_left B2.le (by positivity)
  unfold exponent
  simp only []
  rw [← ha, ← hb]
  by_cases h : (2 : ℚ) ^ ((a : ℤ) - b) ≤ q
  · rw [if_pos h]; exact ⟨h, up⟩
  · rw [if_neg h]
    refine ⟨lo, ?_⟩
    have : (a : ℤ) - b - 1 + 1 = (a : ℤ) - b := by ring
    rw [this]; exact lt_of_not_le h

theorem roundHalfEven_err (x : ℚ) : |(roundHalfEven x : ℚ) - x| ≤ 1 / 2 := by
  have h1 := Int.floor_le x
  have h2 := Int.lt_floor_add_one x
  unfold roundHalfEven
  simp only []
  rw [abs_le]
  split_ifs <;> constructor <;> push_cast <;> linarith

theorem roundHalfEven_intCast (n : ℤ) : roundHalfEven (n : ℚ) = n := by
  unfold roundHalfEven
  simp

theorem roundHalfEven_mono {x y : ℚ} (h : x ≤ y) : roundHalfEven x ≤ roundHalfEven y := by
  by_contra hlt
  push_neg at hlt
  have h1 : (roundHalfEven y : ℚ) + 1 ≤ (roundHalfEven x : ℚ) := by exact_mod_cast hlt
  have ex := abs_le.mp (roundHalfEven_err x)
  have ey := abs_le.mp (roundHalfEven_err y)
  have hxy : x = y := by linarith [ex.2, ey.1]
  subst hxy
  exact lt_irrefl _ hlt

theorem ulp_pos (x : ℚ) : 0 < ulp x := two_zpow_pos _

theorem rndAbs_zero : rndAbs 0 = 0 := by
  unfold rndAbs
  simp [roundHalfEven]

theorem rndAbs_nonneg {x : ℚ} (hx : 0 ≤ x) : 0 ≤ rndAbs x := by
  unfold rndAbs
  have h0 : (0 : ℤ) ≤ roundHalfEven (x / ulp x) := by
    have := roundHalfEven_mono (div_nonneg hx (ulp_pos x).le)
    rwa [show ((0 : ℚ)) = ((0 : ℤ) : ℚ) by norm_num, roundHalfEven_intCast] at this
  have : (0 : ℚ) ≤ (roundHalfEven (x / ulp x) : ℚ) := by exact_mod_cast h0
  exact mul_nonneg this (ulp_pos x).le

/-- In its binade the rounded value stays between the two powers of two. -/
theorem rndAbs_bounds {x : ℚ} (hx : 0 < x) :
    rndAbs x ≤ (2 : ℚ) ^ (max (exponent x) (-1022) + 1) ∧
    (-1022 ≤ exponent x → (2 : ℚ) ^ exponent x ≤ rndAbs x) := by
  obtain ⟨lo, up⟩ := exponent_spec x hx
  have h2 : (2 : ℚ) ≠ 0 := by norm_num
  unfold rndAbs ulp
  set e := max (exponent x) (-1022) with he
  have hg : (0 : ℚ) < (2 : ℚ) ^ (e - 52) := two_zpow_pos _
  constructor
  · have hx53 : x / (2 : ℚ) ^ (e - 52) ≤ ((2 ^ 53 : ℤ) : ℚ) := by
      rw [div_le_iff₀ hg]
      have : (((2 : ℤ) ^ 53 : ℤ) : ℚ) * (2 : ℚ) ^ (e - 52) = (2 : ℚ) ^ (e + 1) := by
        have : (((2 : ℤ) ^ 53 : ℤ) : ℚ) = (2 : ℚ) ^ (53 : ℤ) := by norm_num
        rw [this, ← zpow_add₀ h2]; congr 1; ring
      rw [this]
      have : (2 : ℚ) ^ (exponent x + 1) ≤ (2 : ℚ) ^ (e + 1) :=
        zpow_le_zpow_right₀ (by norm_num) (by have := le_max_left (exponent x) (-1022); omega)
      linarith
    have := roundHalfEven_mono hx53
    rw [roundHalfEven_intCast] at this
    have hc : (roundHalfEven (x / (2 : ℚ) ^ (e - 52)) : ℚ) ≤ (2 : ℚ) ^ (53 : ℤ) := by
      have : (roundHalfEven (x / (2 : ℚ) ^ (e - 52)) : ℚ) ≤ ((2 ^ 53 : ℤ) : ℚ) := by
        exact_mod_cast this
      have e53 : ((2 ^ 53 : ℤ) : ℚ) = (2 : ℚ) ^ (53 : ℤ) := by norm_num
      rwa [e53] at this
    calc (roundHalfEven (x / (2 : ℚ) ^ (e - 52)) : ℚ) * (2 : ℚ) ^ (e - 52)
        ≤ (2 : ℚ) ^ (53 : ℤ) * (2 : ℚ) ^ (e - 52) := mul_le_mul_of_nonneg_right hc hg.le
      _ = (2 : ℚ) ^ (e + 1) := by rw [← zpow_add₀ h2]; congr 1; ring
  · intro hn
    have hee : e = exponent x := max_eq_left hn
    rw [hee]
    have hx52 : ((2 ^ 52 : ℤ) : ℚ) ≤ x / (2 : ℚ) ^ (exponent x - 52) := by
      rw [le_div_iff₀ (two_zpow_pos _)]
      have : (((2 : ℤ) ^ 52 : ℤ) : ℚ) * (2 : ℚ) ^ (exponent x - 52) = (2 : ℚ) ^ (exponent x) := by
        have : (((2 : ℤ) ^ 52 : ℤ) : ℚ) = (2 : ℚ) ^ (52 : ℤ) := by norm_num
        rw [this, ← zpow_add₀ h2]; congr 1; ring
      rw [this]; exact lo
    have := roundHalfEven_mono hx52
    rw [roundHalfEven_intCast] at this
    have hc : (2 : ℚ) ^ (52 : ℤ) ≤ (roundHalfEven (x / (2 : ℚ) ^ (exponent x - 52)) : ℚ) := by
      have : ((2 ^ 52 : ℤ) : ℚ) ≤ (roundHalfEven (x / (2 : ℚ) ^ (exponent x - 52)) : ℚ) := by
        exact_mod_cast this
      have e52 : ((2 ^ 52 : ℤ) : ℚ) = (2 : ℚ) ^ (52 : ℤ) := by norm_num
      rwa [e52] at this
    calc (2 : ℚ) ^ exponent x = (2 : ℚ) ^ (52 : ℤ) * (2 : ℚ) ^ (exponent x - 52) := by
          rw [← zpow_add₀ h2]; congr 1; ring
      _ ≤ _ := mul_le_mul_of_nonneg_right hc (two_zpow_pos _).le

theorem exponent_mono {x y : ℚ} (hx : 0 < x) (hxy : x ≤ y) : exponent x ≤ exponent y := by
  obtain ⟨lx, _⟩ := exponent_spec x hx
  obtain ⟨_, uy⟩ := exponent_spec y (lt_of_lt_of_le hx hxy)
  have : (2 : ℚ) ^ exponent x < (2 : ℚ) ^ (exponent y + 1) := by linarith
  have := (zpow_lt_zpow_iff_right₀ (by norm_num : (1 : ℚ) < 2)).mp this
  omega

theorem rndAbs_mono {x y : ℚ} (hx : 0 ≤ x) (hxy : x ≤ y) : rndAbs x ≤ rndAbs y := by
  rcases hx.eq_or_lt with h0 | hpos
  · rw [← h0, rndAbs_zero]; exact rndAbs_nonneg (hx.trans hxy)
  have hy : 0 < y := lt_of_lt_of_le hpos hxy
  have hexp := exponent_mono hpos hxy
  rcases (max_le_max hexp (le_refl (-1022 : ℤ))).eq_or_lt with heq | hlt
  · have hu : ulp x = ulp y := by unfold ulp; rw [heq]
    unfold rndAbs
    rw [hu]
    have hq : x / ulp y ≤ y / ulp y := div_le_div_of_nonneg_right hxy (ulp_pos y).le
    have : (roundHalfEven (x / ulp y) : ℚ) ≤ (roundHalfEven (y / ulp y) : ℚ) := by
      exact_mod_cast roundHalfEven_mono hq
    exact mul_le_mul_of_nonneg_right this (ulp_pos y).le
  · have hyn : -1022 ≤ exponent y := by
      by_contra hc
      push_neg at hc
      have h1 : max (exponent y) (-1022) = -1022 := max_eq_right hc.le
      have h2 := le_max_right (exponent x) (-1022)
      omega
    have hye : max (exponent y) (-1022) = exponent y := max_eq_left hyn
    rw [hye] at hlt
    calc rndAbs x ≤ (2 : ℚ) ^ (max (exponent x) (-1022) + 1) := (rndAbs_bounds hpos).1
      _ ≤ (2 : ℚ) ^ exponent y := zpow_le_zpow_right₀ (by norm_num) (by omega)
      _ ≤ rndAbs y := (rndAbs_bounds hy).2 hyn

/-- Relative error of one rounding in the normal range: at most `2^-53`. -/
theorem rndAbs_relerr {x : ℚ} (hx : (2 : ℚ) ^ (-1022 : ℤ) ≤ x) :
    |rndAbs x - x| ≤ x * (2 : ℚ) ^ (-53 : ℤ) := by
  have hpos : 0 < x := lt_of_lt_of_le (two_zpow_pos _) hx
  obtain ⟨lo, up⟩ := exponent_spec x hpos
  have h2 : (2 : ℚ) ≠ 0 := by norm_num
  have hn : -1022 ≤ exponent x := by
    have : (2 : ℚ) ^ (-1022 : ℤ) < (2 : ℚ) ^ (exponent x + 1) := by linarith
    have := (zpow_lt_zpow_iff_right₀ (by norm_num : (1 : ℚ) < 2)).mp this
    omega
  have hu : ulp x = (2 : ℚ) ^ (exponent x - 52) := by unfold ulp; rw [max_eq_left hn]
  have hg := ulp_pos x
  have herr := roundHalfEven_err (x / ulp x)
  have hrew : rndAbs x - x = ((roundHalfEven (x / ulp x) : ℚ) - x / ulp x) * ulp x := by
    unfold rndAbs; field_simp
  rw [hrew, abs_mul, abs_of_pos hg]
  have hhalf : ulp x * (1 / 2) = (2 : ℚ) ^ exponent x * (2 : ℚ) ^ (-53 : ℤ) := by
    rw [hu, ← zpow_add₀ h2]
    have : (1 / 2 : ℚ) = (2 : ℚ) ^ (-1 : ℤ) := by norm_num
    rw [this, ← zpow_add₀ h2]; congr 1; ring
  calc |(roundHalfEven (x / ulp x) : ℚ) - x / ulp x| * ulp x
      ≤ 1 / 2 * ulp x := mul_le_mul_of_nonneg_right herr hg.le
    _ = (2 : ℚ) ^ exponent x * (2 : ℚ) ^ (-53 : ℤ) := by rw [mul_comm, hhalf]
    _ ≤ x * (2 : ℚ) ^ (-53 : ℤ) := mul_le_mul_of_nonneg_right lo (two_zpow_pos _).le

/-- A rational `m * 2^j` with fewer than 53 significant bits and `j` at least the
subnormal exponent is a binary64 value. -/
theorem rndAbs_exact (m j : ℤ) (hm : 0 < m) (hm53 : m < 2 ^ 53) (hj : -1074 ≤ j) :
    rndAbs ((m : ℚ) * (2 : ℚ) ^ j) = (m : ℚ) * (2 : ℚ) ^ j := by
  have h2 : (2 : ℚ) ≠ 0 := by norm_num
  have hmq : (0 : ℚ) < (m : ℚ) := by exact_mod_cast hm
  have hpos : (0 : ℚ) < (m : ℚ) * (2 : ℚ) ^ j := mul_pos hmq (two_zpow_pos _)
  obtain ⟨lo, up⟩ := exponent_spec _ hpos
  set x := (m : ℚ) * (2 : ℚ) ^ j with hx
  have hlt : x < (2 : ℚ) ^ (53 + j) := by
    rw [zpow_add₀ h2, hx]
    have : (m : ℚ) < (2 : ℚ) ^ (53 : ℤ) := by
      have : (m : ℚ) < ((2 ^ 53 : ℤ) : ℚ) := by exact_mod_cast hm53
      have e53 : ((2 ^ 53 : ℤ) : ℚ) = (2 : ℚ) ^ (53 : ℤ) := by norm_num
      rwa [e53] at this
    exact mul_lt_mul_of_pos_right this (two_zpow_pos _)
  have he : exponent x < 53 + j := by
    have : (2 : ℚ) ^ exponent x < (2 : ℚ) ^ (53 + j) := lt_of_le_of_lt lo hlt
    exact (zpow_lt_zpow_iff_right₀ (by norm_num : (1 : ℚ) < 2)).mp this
  have hk : 0 ≤ j - (max (exponent x) (-1022) - 52) := by
    rcases max_cases (exponent x) (-1022) with ⟨h, _⟩ | ⟨h, _⟩ <;> rw [h] <;> omega
  obtain ⟨k, hkk⟩ := Int.eq_ofNat_of_zero_le hk
  have hdiv : x / ulp x = ((m * 2 ^ k : ℤ) : ℚ) := by
    unfold ulp
    rw [div_eq_iff (two_zpow_pos _).ne']
    push_cast
    rw [hx, mul_assoc]
    congr 1
    rw [← zpow_natCast, ← zpow_add₀ h2, ← hkk]
    congr 1; ring
  unfold rndAbs
  rw [hdiv, roundHalfEven_intCast, ← hdiv]
  exact div_mul_cancel₀ x (ulp_pos x).ne'

theorem rnd_of_nonneg {q : ℚ} (h : 0 ≤ q) : rnd q = rndAbs q := by
  unfold rnd; rw [if_neg (not_lt.mpr h)]

theorem rnd_nonneg {q : ℚ} (h : 0 ≤ q) : 0 ≤ rnd q := by
  rw [rnd_of_nonneg h]; exact rndAbs_nonneg h

theorem rnd_mono {x y : ℚ} (hx : 0 ≤ x) (hxy : x ≤ y) : rnd x ≤ rnd y := by
  rw [rnd_of_nonneg hx, rnd_of_nonneg (hx.trans hxy)]; exact rndAbs_mono hx hxy

theorem rnd_relerr {x : ℚ} (hx : (2 : ℚ) ^ (-1022 : ℤ) ≤ x) :
    |rnd x - x| ≤ x * (2 : ℚ) ^ (-53 : ℤ) := by
  rw [rnd_of_nonneg ((two_zpow_pos _).le.trans hx)]; exact rndAbs_relerr hx

/-- Integers and half-integers below `2^52` are binary64 values: `k/2` for
`0 ≤ k < 2^53`. -/
theorem rnd_half_int (k : ℤ) (h0 : 0 ≤ k) (h53 : k < 2 ^ 53) :
    rnd ((k : ℚ) / 2) = (k : ℚ) / 2 := by
  have hq : (0 : ℚ) ≤ (k : ℚ) / 2 := by
    have : (0 : ℚ) ≤ (k : ℚ) := by exact_mod_cast h0
    positivity
  rw [rnd_of_nonneg hq]
  rcases h0.eq_or_lt with h | h
  · rw [← h]; simp [rndAbs_zero]
  · have := rndAbs_exact k (-1) h h53 (by norm_num)
    have e : (k : ℚ) * (2 : ℚ) ^ (-1 : ℤ) = (k : ℚ) / 2 := by
      rw [zpow_neg_one]; ring
    rwa [e] at this

theorem rndAbs_idem {x : ℚ} (hx : 0 ≤ x) : rndAbs (rndAbs x) = rndAbs x := by
  rcases hx.eq_or_lt with h0 | hpos
  · rw [← h0, rndAbs_zero, rndAbs_zero]
  have h2 : (2 : ℚ) ≠ 0 := by norm_num
  have hb := (rndAbs_bounds hpos).1
  have hnn := rndAbs_nonneg hx
  set e := max (exponent x) (-1022) with he
  have hge : -1022 ≤ e := le_max_right _ _
  have hu : ulp x = (2 : ℚ) ^ (e - 52) := rfl
  have hg := ulp_pos x
  have hdef : rndAbs x = (roundHalfEven (x / ulp x) : ℚ) * (2 : ℚ) ^ (e - 52) := rfl
  set k := roundHalfEven (x / ulp x) with hk
  have hk0 : 0 ≤ k := by
    have : (0 : ℚ) ≤ (k : ℚ) * (2 : ℚ) ^ (e - 52) := by rw [← hdef]; exact hnn
    have := nonneg_of_mul_nonneg_left this (two_zpow_pos _)
    exact_mod_cast this
  have hk53 : k ≤ 2 ^ 53 := by
    have h1 : (k : ℚ) * (2 : ℚ) ^ (e - 52) ≤ (2 : ℚ) ^ (53 : ℤ) * (2 : ℚ) ^ (e - 52) := by
      rw [← hdef, ← zpow_add₀ h2]
      have : (53 : ℤ) + (e - 52) = e + 1 := by ring
      rw [this]; exact hb
    have := le_of_mul_le_mul_right h1 (two_zpow_pos _)
    have e53 : ((2 ^ 53 : ℤ) : ℚ) = (2 : ℚ) ^ (53 : ℤ) := by norm_num
    rw [← e53] at this
    exact_mod_cast this
  rw [hdef]
  rcases hk0.eq_or_lt with hz | hkpos
  · rw [← hz]; simp [rndAbs_zero]
  rcases hk53.eq_or_lt with h53 | hlt
  · have e53 : ((k : ℤ) : ℚ) = (2 : ℚ) ^ (53 : ℤ) := by rw [h53]; norm_num
    have : (k : ℚ) * (2 : ℚ) ^ (e - 52) = ((1 : ℤ) : ℚ) * (2 : ℚ) ^ (e + 1) := by
      rw [e53, Int.cast_one, one_mul, ← zpow_add₀ h2]; congr 1; ring
    rw [this]
    exact rndAbs_exact 1 (e + 1) (by norm_num) (by norm_num) (by omega)
  · exact rndAbs_exact k (e - 52) hkpos hlt (by omega)

theorem isDouble_rnd {q : ℚ} (h : 0 ≤ q) : IsDouble (rnd q) := by
  unfold IsDouble
  rw [rnd_of_nonneg (rnd_nonneg h), rnd_of_nonneg h]
  exact rndAbs_idem h

theorem rnd_zero : rnd 0 = 0 := by
  rw [rnd_of_nonneg le_rfl, rndAbs_zero]

theorem rnd_one : rnd 1 = 1 := by
  have := rnd_half_int 2 (by norm_num) (by norm_num)
  norm_num at this; exact this

theorem rnd_two : rnd 2 = 2 := by
  have := rnd_half_int 4 (by norm_num) (by norm_num)
  norm_num at this; exact this

theorem rnd_two_zpow (j : ℤ) (hj : -1074 ≤ j) : rnd ((2 : ℚ) ^ j) = (2 : ℚ) ^ j := by
  rw [rnd_of_nonneg (two_zpow_pos j).le]
  have := rndAbs_exact 1 j (by norm_num) (by norm_num) hj
  simpa using this

end Binary64

namespace Dbl

theorem round_of_bounds {q : ℚ} (h0 : 0 ≤ q) (h1 : q ≤ (2 : ℚ) ^ (64 : ℤ)) :
    round q = fin (Binary64.rnd q) := by
  have r0 := Binary64.rnd_nonneg h0
  have r1 : Binary64.rnd q ≤ (2 : ℚ) ^ (64 : ℤ) := by
    have := Binary64.rnd_mono h0 h1
    rwa [Binary64.rnd_two_zpow 64 (by norm_num)] at this
  have big : (2 : ℚ) ^ (64 : ℤ) < (2 : ℚ) ^ (1024 : ℕ) := by norm_num
  unfold round
  simp only []
  rw [if_neg (by linarith), if_neg (by linarith)]

end Dbl

/-! ## The counter -/

/-- C2 (evaluation at the failing input): a counter built with 49 steps and
advanced 49 times has the value `49 * (1./49) = 1 - 2^-53`, which is below
`1.0`, so `operator bool` still answers "not finished". -/
theorem counter_49_not_complete :
    (Counter.incr^[49] (Counter.init 49)).toDouble = Dbl.fin (1 - 1 / 2 ^ 53) ∧
    (Counter.incr^[49] (Counter.init 49)).toBool = true := by
  decide!

/-- C3 (counterexample to the claim as stated): a counter of 4 steps has the step
`1/4` exactly; after `add_step` its step is the binary64 value `0.2`, which is
not `1/5`.  A counter of 5 steps has the step `1./5`; after `add_step` its step
is `6004799503160662 * 2^-55`, which is not `1/6` and is one unit in the last
place above `1./6`, the step of a counter of 6 steps. -/
theorem add_step_5_not_sixth :
    (Counter.init 4).get_step = Dbl.fin (1 / 4) ∧
    (Counter.init 4).add_step.get_step = Dbl.fin (3602879701896397 / 2 ^ 54) ∧
    (Counter.init 4).add_step.get_step ≠ Dbl.fin (1 / 5) ∧
    (Counter.init 5).add_step.get_step = Dbl.fin (6004799503160662 / 2 ^ 55) ∧
    (Counter.init 5).add_step.get_step ≠ Dbl.fin (1 / 6) ∧
    (Counter.init 6).get_step = Dbl.fin (6004799503160661 / 2 ^ 55) ∧
    (Counter.init 5).add_step.get_step ≠ (Counter.init 6).get_step ∧
    ((Counter.init 5).run [CounterOp.grow]).get_step ≠ Dbl.fin (1 / 6) := by
  decide!

/-! ## The counter under growth -/

namespace Binary64

/-- The law behind `add_step`, in exact arithmetic: `x / (1 + x)` at `x = 1/N`
is `1/(N+1)`.  In binary64 arithmetic each of the three operations is rounded. -/
theorem growth_law_exact (N : ℚ) (hN : 0 < N) : (1 / N) / (1 + 1 / N) = 1 / (N + 1) := by
  have h1 : N ≠ 0 := hN.ne'
  have h2 : N + 1 ≠ 0 := by linarith
  field_simp

/-- The shrinking of the step by `1/(1+s)` outweighs four roundings of relative
error `u` as soon as `s ≥ 8u`. -/
theorem growth_gap {u s : ℚ} (hu : 0 < u) (hu1 : u ≤ 1 / 16) (hs : 8 * u ≤ s) :
    (1 + u) * (1 + u) < (1 - u) * ((1 + s) * (1 - u)) := by
  have h1 : 0 ≤ (1 - u) * (1 - u) := mul_self_nonneg _
  have h2 : (1 - u) * (1 - u) * (1 + 8 * u) ≤ (1 - u) * (1 - u) * (1 + s) :=
    mul_le_mul_of_nonneg_left (by linarith) h1
  have h3 : u * u ≤ u * (1 / 16) := mul_le_mul_of_nonneg_left hu1 hu.le
  have h4 : 0 < u * u * u := mul_pos (mul_pos hu hu) hu
  nlinarith

end Binary64

/-- A counter built with a total `1 ≤ T < 2^63` has count `0` and a step that
is a binary64 value of `(0, 1]`. -/
theorem Progress.Counter.init_step_range (T : ℤ) (h1 : 1 ≤ T) (h2 : T < 2 ^ 63) :
    ∃ s : ℚ, (Counter.init T).step = Dbl.fin s ∧ Binary64.IsDouble s ∧ 0 < s ∧ s ≤ 1 ∧
      (Counter.init T).count = 0 := by
  have hp64 : (2 : ℚ) ^ (64 : ℤ) = 18446744073709551616 := by norm_num
  have hT1 : (1 : ℚ) ≤ (T : ℚ) := by exact_mod_cast h1
  have hT2 : (T : ℚ) ≤ (2 : ℚ) ^ (63 : ℤ) := by
    have : (T : ℚ) < (((2 : ℤ) ^ 63 : ℤ) : ℚ) := by exact_mod_cast h2
    have e : (((2 : ℤ) ^ 63 : ℤ) : ℚ) = (2 : ℚ) ^ (63 : ℤ) := by norm_num
    rw [e] at this; exact this.le
  have hT0 : (0 : ℚ) ≤ (T : ℚ) := by linarith
  have hCfin : Dbl.ofInt T = Dbl.fin (Binary64.rnd (T : ℚ)) :=
    Dbl.round_of_bounds hT0 (by norm_num at hT2 ⊢; linarith)
  have hC1 : 1 ≤ Binary64.rnd (T : ℚ) := by
    have := Binary64.rnd_mono (by norm_num) hT1
    rwa [Binary64.rnd_one] at this
  have hC2 : Binary64.rnd (T : ℚ) ≤ (2 : ℚ) ^ (63 : ℤ) := by
    have := Binary64.rnd_mono hT0 hT2
    rwa [Binary64.rnd_two_zpow 63 (by norm_num)] at this
  have hCpos : 0 < Binary64.rnd (T : ℚ) := by linarith
  have hq0 : 0 < 1 / Binary64.rnd (T : ℚ) := div_pos one_pos hCpos
  have hq1 : 1 / Binary64.rnd (T : ℚ) ≤ 1 := by
    rw [div_le_iff₀ hCpos]; linarith
  have hqlow : (2 : ℚ) ^ (-63 : ℤ) ≤ 1 / Binary64.rnd (T : ℚ) := by
    rw [le_div_iff₀ hCpos]
    calc (2 : ℚ) ^ (-63 : ℤ) * Binary64.rnd (T : ℚ)
        ≤ (2 : ℚ) ^ (-63 : ℤ) * (2 : ℚ) ^ (63 : ℤ) :=
          mul_le_mul_of_nonneg_left hC2 (Binary64.two_zpow_pos _).le
      _ = 1 := by norm_num
  have hstep : (Counter.init T).step = Dbl.fin (Binary64.rnd (1 / Binary64.rnd (T : ℚ))) := by
    show Dbl.div (Dbl.fin 1) (Dbl.ofInt T) = _
    rw [hCfin]
    show (if Binary64.rnd (T : ℚ) = 0 then _ else Dbl.round (1 / Binary64.rnd (T : ℚ))) = _
    rw [if_neg hCpos.ne']
    exact Dbl.round_of_bounds hq0.le (by rw [hp64]; linarith)
  refine ⟨_, hstep, Binary64.isDouble_rnd hq0.le, ?_, ?_, rfl⟩
  · have := Binary64.rnd_mono (Binary64.two_zpow_pos _).le hqlow
    rw [Binary64.rnd_two_zpow (-63) (by norm_num)] at this
    exact lt_of_lt_of_le (Binary64.two_zpow_pos _) this
  · have := Binary64.rnd_mono hq0.le hq1
    rwa [Binary64.rnd_one] at this

/-- C4 (as amended): for a counter whose step is a binary64 value in `(0, 1]`
and whose count fits a `long`, one `add_step` keeps the count, leaves a step
that is again a positive binary64 value and not larger than before, and never
increases the value; the value is `0` before and after when the count is `0`,
and it strictly decreases when the count is positive and the step is at least
`2^-50`.  For a step of `2^-53` or less, `1.0 + step` rounds to `1.0` and
`add_step` changes neither the step nor the value: the counter is as before. -/
theorem add_step_value_monotone (c : Counter) (s : ℚ)
    (hs : c.step = Dbl.fin s) (hd : Binary64.IsDouble s) (h0 : 0 < s) (h1 : s ≤ 1)
    (hc : c.count < 2 ^ 63) :
    ∃ s' v v' : ℚ,
      c.add_step.get_step = Dbl.fin s' ∧ Binary64.IsDouble s' ∧ 0 < s' ∧ s' ≤ s ∧
      c.add_step.count = c.count ∧
      c.toDouble = Dbl.fin v ∧ c.add_step.toDouble = Dbl.fin v' ∧ v' ≤ v ∧
      (c.count = 0 → v = 0 ∧ v' = 0) ∧
      (0 < c.count → (2 : ℚ) ^ (-50 : ℤ) ≤ s → v' < v) ∧
      (s ≤ (2 : ℚ) ^ (-53 : ℤ) →
        Dbl.add (Dbl.fin 1) c.step = Dbl.fin 1 ∧ s' = s ∧ v' = v ∧ c.add_step = c) := by
  have hp64 : (2 : ℚ) ^ (64 : ℤ) = 18446744073709551616 := by norm_num
  -- the sum 1.0 + step
  have hA0 : (0 : ℚ) ≤ 1 + s := by linarith
  have hAfin : Dbl.add (Dbl.fin 1) (Dbl.fin s) = Dbl.fin (Binary64.rnd (1 + s)) := by
    show Dbl.round (1 + s) = _
    exact Dbl.round_of_bounds hA0 (by rw [hp64]; linarith)
  have hA1 : 1 ≤ Binary64.rnd (1 + s) := by
    have := Binary64.rnd_mono (by norm_num : (0 : ℚ) ≤ 1) (by linarith : (1 : ℚ) ≤ 1 + s)
    rwa [Binary64.rnd_one] at this
  have hA2 : Binary64.rnd (1 + s) ≤ 2 := by
    have := Binary64.rnd_mono hA0 (by linarith : 1 + s ≤ (2 : ℚ))
    rwa [Binary64.rnd_two] at this
  set A := Binary64.rnd (1 + s) with hA
  have hApos : 0 < A := by linarith
  -- the quotient step / (1.0 + step)
  have hq0 : 0 < s / A := div_pos h0 hApos
  have hqs : s / A ≤ s := div_le_self h0.le hA1
  have hSfin : Dbl.div (Dbl.fin s) (Dbl.fin A) = Dbl.fin (Binary64.rnd (s / A)) := by
    show (if A = 0 then _ else Dbl.round (s / A)) = _
    rw [if_neg hApos.ne']
    exact Dbl.round_of_bounds hq0.le (by rw [hp64]; linarith)
  set s' := Binary64.rnd (s / A) with hs'
  have hs's : s' ≤ s := by
    have := Binary64.rnd_mono hq0.le hqs
    rwa [hd] at this
  have hAsmall : s ≤ (2 : ℚ) ^ (-53 : ℤ) → A = 1 := by
    intro hsmall
    have hA1' : A ≤ 1 := by
      have := Binary64.rnd_mono hA0 (by linarith : 1 + s ≤ 1 + (2 : ℚ) ^ (-53 : ℤ))
      have e : Binary64.rnd (1 + (2 : ℚ) ^ (-53 : ℤ)) = 1 := by decide!
      rwa [e] at this
    exact le_antisymm hA1' hA1
  have hs'small : s ≤ (2 : ℚ) ^ (-53 : ℤ) → s' = s := by
    intro hsmall
    rw [hs', hAsmall hsmall, div_one]; exact hd
  have hs'pos : 0 < s' := by
    by_cases hsmall : s ≤ (2 : ℚ) ^ (-53 : ℤ)
    · rw [hs'small hsmall]; exact h0
    · push_neg at hsmall
      have h54 : (2 : ℚ) ^ (-54 : ℤ) ≤ s / A := by
        rw [le_div_iff₀ hApos]
        have e : (2 : ℚ) ^ (-54 : ℤ) * 2 = (2 : ℚ) ^ (-53 : ℤ) := by norm_num
        calc (2 : ℚ) ^ (-54 : ℤ) * A ≤ (2 : ℚ) ^ (-54 : ℤ) * 2 :=
              mul_le_mul_of_nonneg_left hA2 (Binary64.two_zpow_pos _).le
          _ = (2 : ℚ) ^ (-53 : ℤ) := e
          _ ≤ s := hsmall.le
      have := Binary64.rnd_mono (Binary64.two_zpow_pos _).le h54
      rw [Binary64.rnd_two_zpow (-54) (by norm_num)] at this
      exact lt_of_lt_of_le (Binary64.two_zpow_pos _) this
  -- the conversion of count
  have hcq0 : (0 : ℚ) ≤ ((c.count : ℤ) : ℚ) := by positivity
  have hcq1 : ((c.count : ℤ) : ℚ) ≤ (2 : ℚ) ^ (63 : ℕ) := by
    have h : (c.count : ℚ) ≤ (2 : ℚ) ^ (63 : ℕ) := by exact_mod_cast hc.le
    rw [Int.cast_natCast]; exact h
  have hCfin : Dbl.ofInt (c.count : ℤ) = Dbl.fin (Binary64.rnd ((c.count : ℤ) : ℚ)) :=
    Dbl.round_of_bounds hcq0 (by rw [hp64]; norm_num at hcq1 ⊢; linarith)
  have hC0 : 0 ≤ Binary64.rnd ((c.count : ℤ) : ℚ) := Binary64.rnd_nonneg hcq0
  have hC1 : Binary64.rnd ((c.count : ℤ) : ℚ) ≤ (2 : ℚ) ^ (63 : ℕ) := by
    have := Binary64.rnd_mono hcq0 hcq1
    have e : ((2 : ℚ) ^ (63 : ℕ)) = (2 : ℚ) ^ (63 : ℤ) := by norm_num
    rw [e, Binary64.rnd_two_zpow 63 (by norm_num)] at this
    rw [e]; exact this
  set C := Binary64.rnd ((c.count : ℤ) : ℚ) with hC
  have hC63 : C ≤ 9223372036854775808 := by norm_num at hC1; exact hC1
  -- the two products
  have hv0 : 0 ≤ C * s := mul_nonneg hC0 h0.le
  have hv'0 : 0 ≤ C * s' := mul_nonneg hC0 hs'pos.le
  have hvle : C * s' ≤ C * s := mul_le_mul_of_nonneg_left hs's hC0
  have hvb : C * s ≤ (2 : ℚ) ^ (64 : ℤ) := by
    rw [hp64]
    calc C * s ≤ C * 1 := mul_le_mul_of_nonneg_left h1 hC0
      _ ≤ 18446744073709551616 := by linarith
  have hVfin : Dbl.mul (Dbl.fin C) (Dbl.fin s) = Dbl.fin (Binary64.rnd (C * s)) := by
    show Dbl.round (C * s) = _
    exact Dbl.round_of_bounds hv0 hvb
  have hV'fin : Dbl.mul (Dbl.fin C) (Dbl.fin s') = Dbl.fin (Binary64.rnd (C * s')) := by
    show Dbl.round (C * s') = _
    exact Dbl.round_of_bounds hv'0 (hvle.trans hvb)
  have hstep : c.add_step.step = Dbl.fin s' := by
    show Dbl.div c.step (Dbl.add (Dbl.fin 1) c.step) = _
    rw [hs, hAfin, hSfin]
  refine ⟨s', Binary64.rnd (C * s), Binary64.rnd (C * s'), hstep,
    Binary64.isDouble_rnd hq0.le, hs'pos, hs's, rfl, ?_, ?_,
    Binary64.rnd_mono hv'0 hvle, ?_, ?_, ?_⟩
  · show Dbl.mul (Dbl.ofInt (c.count : ℤ)) c.step = _
    rw [hs, hCfin, hVfin]
  · show Dbl.mul (Dbl.ofInt (c.count : ℤ)) c.add_step.step = _
    rw [hstep, hCfin, hV'fin]
  · intro hz
    have hCz : C = 0 := by rw [hC, hz]; simp [Binary64.rnd_zero]
    rw [hCz, zero_mul, zero_mul, Binary64.rnd_zero]
    exact ⟨rfl, rfl⟩
  · intro hcpos hs50
    -- one unit of relative error
    obtain ⟨u, hu⟩ : ∃ u : ℚ, u = (2 : ℚ) ^ (-53 : ℤ) := ⟨_, rfl⟩
    have hu0 : (0 : ℚ) < u := by rw [hu]; exact Binary64.two_zpow_pos _
    have hu1 : u ≤ 1 / 16 := by rw [hu]; norm_num
    have hs8 : 8 * u ≤ s := by
      have e : 8 * (2 : ℚ) ^ (-53 : ℤ) = (2 : ℚ) ^ (-50 : ℤ) := by norm_num
      rw [hu, e]; exact hs50
    have hmin : (2 : ℚ) ^ (-1022 : ℤ) ≤ 2 * u := by
      have e : 2 * (2 : ℚ) ^ (-53 : ℤ) = (2 : ℚ) ^ (-52 : ℤ) := by norm_num
      rw [hu, e]
      exact zpow_le_zpow_right₀ (by norm_num) (by norm_num)
    have hC1' : 1 ≤ C := by
      have h1c : (1 : ℚ) ≤ ((c.count : ℤ) : ℚ) := by exact_mod_cast hcpos
      have := Binary64.rnd_mono (by norm_num : (0 : ℚ) ≤ 1) h1c
      rwa [Binary64.rnd_one] at this
    -- rounding errors of the four operations
    have eA := abs_le.mp (Binary64.rnd_relerr (x := 1 + s)
      (hmin.trans (by linarith only [hs8, hu0])))
    rw [← hu] at eA
    have hAlow : (1 + s) * (1 - u) ≤ A := by rw [hA]; linarith only [eA.1]
    have hq4 : 4 * u ≤ s / A := by
      rw [le_div_iff₀ hApos]
      have := mul_le_mul_of_nonneg_left hA2 (by linarith only [hu0] : (0 : ℚ) ≤ 4 * u)
      linarith only [this, hs8]
    have hqmin : (2 : ℚ) ^ (-1022 : ℤ) ≤ s / A :=
      hmin.trans ((by linarith only [hu0] : 2 * u ≤ 4 * u).trans hq4)
    have eq := abs_le.mp (Binary64.rnd_relerr hqmin)
    rw [← hu] at eq
    have hs'up : s' ≤ s / A * (1 + u) := by rw [hs']; linarith only [eq.2]
    have hs'low : s / A * (1 - u) ≤ s' := by rw [hs']; linarith only [eq.1]
    have hs'A : s' * A ≤ s * (1 + u) := by
      have := mul_le_mul_of_nonneg_right hs'up hApos.le
      have e : s / A * (1 + u) * A = s * (1 + u) := by field_simp
      rw [e] at this; exact this
    have hs'52 : 2 * u ≤ s' := by
      have h1u : (0 : ℚ) ≤ 1 - u := by linarith only [hu1]
      have a1 := mul_le_mul_of_nonneg_right hq4 h1u
      have a2 := mul_le_mul_of_nonneg_left hu1 hu0.le
      linarith only [a1, a2, hs'low, hu0]
    have hCs : (2 : ℚ) ^ (-1022 : ℤ) ≤ C * s := by
      have := le_mul_of_one_le_left h0.le hC1'
      linarith only [this, hmin, hs8, hu0]
    have hCs' : (2 : ℚ) ^ (-1022 : ℤ) ≤ C * s' := by
      have := le_mul_of_one_le_left hs'pos.le hC1'
      linarith only [this, hmin, hs'52]
    have ev := abs_le.mp (Binary64.rnd_relerr hCs)
    have ev' := abs_le.mp (Binary64.rnd_relerr hCs')
    rw [← hu] at ev ev'
    have hvlow : C * s * (1 - u) ≤ Binary64.rnd (C * s) := by linarith only [ev.1]
    have hv'up : Binary64.rnd (C * s') ≤ C * s' * (1 + u) := by linarith only [ev'.2]
    -- the step shrinks by more than the roundings can give back
    have key : s' * (1 + u) < s * (1 - u) := by
      by_contra hcon
      push_neg at hcon
      have hpos1 : 0 < (1 + s) * (1 - u) :=
        mul_pos (by linarith only [h0]) (by linarith only [hu1])
      have c1 : s' * ((1 + s) * (1 - u)) ≤ s * (1 + u) :=
        (mul_le_mul_of_nonneg_left hAlow hs'pos.le).trans hs'A
      have c2 : s * (1 - u) * ((1 + s) * (1 - u)) ≤ s' * (1 + u) * ((1 + s) * (1 - u)) :=
        mul_le_mul_of_nonneg_right hcon hpos1.le
      have c3 : s' * (1 + u) * ((1 + s) * (1 - u)) ≤ s * (1 + u) * (1 + u) := by
        have := mul_le_mul_of_nonneg_right c1 (by linarith only [hu0] : (0 : ℚ) ≤ 1 + u)
        linarith only [this]
      have c4 : (1 - u) * ((1 + s) * (1 - u)) ≤ (1 + u) * (1 + u) := by
        have := c2.trans c3
        have e1 : s * (1 - u) * ((1 + s) * (1 - u)) = s * ((1 - u) * ((1 + s) * (1 - u))) := by ring
        have e2 : s * (1 + u) * (1 + u) = s * ((1 + u) * (1 + u)) := by ring
        rw [e1, e2] at this
        exact le_of_mul_le_mul_left this h0
      exact absurd c4 (not_le.mpr (Binary64.growth_gap hu0 hu1 hs8))
    calc Binary64.rnd (C * s') ≤ C * s' * (1 + u) := hv'up
      _ = C * (s' * (1 + u)) := by ring
      _ < C * (s * (1 - u)) := mul_lt_mul_of_pos_left key (by linarith only [hC1'])
      _ = C * s * (1 - u) := by ring
      _ ≤ Binary64.rnd (C * s) := hvlow
  · intro hsmall
    have e := hs'small hsmall
    refine ⟨by rw [hs, hAfin, hAsmall hsmall], e, by rw [e], ?_⟩
    have hst : c.add_step.step = c.step := by rw [hstep, e, hs]
    cases c
    simp only [Counter.add_step, Counter.mk.injEq, true_and] at hst ⊢
    exact hst

/-- C4 (counterexample to the claim as stated): a counter of `2^53` steps has the
positive step `2^-53`; with count `1` its value is `2^-53` before and after
`add_step`, because `1.0 + 2^-53` rounds to `1.0`: no strict decrease. -/
theorem add_step_keeps_value_at_tiny_step :
    (Counter.init (2 ^ 53)).incr.get_step = Dbl.fin (1 / 2 ^ 53) ∧
    (Counter.init (2 ^ 53)).incr.count = 1 ∧
    (Counter.init (2 ^ 53)).incr.toDouble = Dbl.fin (1 / 2 ^ 53) ∧
    (Counter.init (2 ^ 53)).incr.add_step.toDouble = Dbl.fin (1 / 2 ^ 53) ∧
    Dbl.lt (Counter.init (2 ^ 53)).incr.add_step.toDouble
      (Counter.init (2 ^ 53)).incr.toDouble = false := by
  decide!

/-- C4 (witness): the amended statement at the counter with count 3 and step
`1/4`. -/
theorem add_step_value_monotone_witness :
    ((Counter.mk 3 (Dbl.fin (1 / 4))).step = Dbl.fin (1 / 4) ∧
      Binary64.IsDouble (1 / 4) ∧ (0 : ℚ) < 1 / 4 ∧ (1 / 4 : ℚ) ≤ 1 ∧
      (Counter.mk 3 (Dbl.fin (1 / 4))).count < 2 ^ 63) ∧
    ∃ s' v v' : ℚ,
      (Counter.mk 3 (Dbl.fin (1 / 4))).add_step.get_step = Dbl.fin s' ∧
      Binary64.IsDouble s' ∧ 0 < s' ∧ s' ≤ 1 / 4 ∧
      (Counter.mk 3 (Dbl.fin (1 / 4))).add_step.count = (Counter.mk 3 (Dbl.fin (1 / 4))).count ∧
      (Counter.mk 3 (Dbl.fin (1 / 4))).toDouble = Dbl.fin v ∧
      (Counter.mk 3 (Dbl.fin (1 / 4))).add_step.toDouble = Dbl.fin v' ∧ v' ≤ v ∧
      ((Counter.mk 3 (Dbl.fin (1 / 4))).count = 0 → v = 0 ∧ v' = 0) ∧
      (0 < (Counter.mk 3 (Dbl.fin (1 / 4))).count → (2 : ℚ) ^ (-50 : ℤ) ≤ 1 / 4 → v' < v) ∧
      ((1 / 4 : ℚ) ≤ (2 : ℚ) ^ (-53 : ℤ) →
        Dbl.add (Dbl.fin 1) (Counter.mk 3 (Dbl.fin (1 / 4))).step = Dbl.fin 1 ∧ s' = 1 / 4 ∧
        v' = v ∧ (Counter.mk 3 (Dbl.fin (1 / 4))).add_step = Counter.mk 3 (Dbl.fin (1 / 4))) :=
  ⟨⟨rfl, by unfold Binary64.IsDouble; decide!, by norm_num, by norm_num, by decide⟩,
    add_step_value_monotone (Counter.mk 3 (Dbl.fin (1 / 4))) (1 / 4) rfl
      (by unfold Binary64.IsDouble; decide!) (by norm_num) (by norm_num) (by decide)⟩

/-- Step of the default counter (total 1) after 533 calls of `add_step`: the
rounded recurrence has drifted half a unit in the last place below `1./534`. -/
theorem step_after_533 :
    Counter.add_step^[533] Counter.init = ⟨0, Dbl.fin (4318058069688565 / 2 ^ 61)⟩ := by
  decide!

/-- C5 (evaluation at the failing input): the default counter after 533 growth
events and 534 increments has the value `534 * step = 1 - 2^-53`, so
`operator bool` is still true although `d = g + 1`. -/
theorem aggregate_534_still_incomplete :
    (Counter.incr^[534] (Counter.add_step^[533] Counter.init)).toDouble
      = Dbl.fin (1 - 1 / 2 ^ 53) ∧
    (Counter.incr^[534] (Counter.add_step^[533] Counter.init)).toBool = true := by
  rw [step_after_533]
  decide!

/-! ## The hooks of the bars -/

namespace ThreadPool

theorem mapFind_mapSet_self (c : Counter) : ∀ (m : BarMap) (id : ThreadId),
    mapFind (mapSet m id c) id = some c := by
  intro m
  induction m with
  | nil => intro id; simp [mapSet, mapFind]
  | cons kc m ih =>
    intro id
    obtain ⟨k, c0⟩ := kc
    simp only [mapSet]
    by_cases h1 : id < k
    · rw [if_pos h1]; simp [mapFind]
    · rw [if_neg h1]
      by_cases h2 : id = k
      · rw [if_pos h2]; simp [mapFind, h2]
      · rw [if_neg h2]
        simp only [mapFind]
        rw [if_neg (fun h => h2 h.symm)]
        exact ih id

/-- After `get_bar(id)` the bar of `id` exists and holds the counter returned. -/
theorem Bars.get_bar_find (b : Bars) (id : ThreadId) :
    mapFind (b.get_bar id).1.bars id = some (b.get_bar id).2 ∧
    (b.get_bar id).1.tracking = b.tracking ∧ (b.get_bar id).1.starts = b.starts := by
  unfold Bars.get_bar
  cases h : mapFind b.bars id with
  | some c => simp [h]
  | none => simp [mapFind_mapSet_self]

theorem Bars.total_of_find (b : Bars) (c : Counter) (h : mapFind b.bars id0 = some c) :
    b.total = c := by
  simp [Bars.total, Bars.get_bar, h]

/-- What the enqueue hook does, by the value of `tracking`: with `tracking` set
it applies `add_step` to the total counter and changes neither the flag nor
the tracker; with `tracking` clear it sets the flag, starts a tracker and
leaves the total counter as it is. -/
theorem Bars.hook_enqueue_by_flag (b : Bars) :
    (b.tracking = true → b.hook_enqueue.total = b.total.add_step ∧
      b.hook_enqueue.tracking = true ∧ b.hook_enqueue.starts = b.starts) ∧
    (b.tracking = false → b.hook_enqueue.total = b.total ∧
      b.hook_enqueue.tracking = true ∧ b.hook_enqueue.starts = b.starts + 1) := by
  obtain ⟨hfind, htr, hst⟩ := Bars.get_bar_find b id0
  constructor
  · intro ht
    have h1 : b.hook_enqueue = { (b.get_bar id0).1 with
        bars := mapSet (b.get_bar id0).1.bars id0 (b.get_bar id0).2.add_step } := by
      unfold Bars.hook_enqueue
      simp [htr, ht]
    rw [h1]
    refine ⟨?_, ?_, ?_⟩
    · exact Bars.total_of_find _ _ (mapFind_mapSet_self _ _ _)
    · simp [htr, ht]
    · simp [hst]
  · intro ht
    have h1 : b.hook_enqueue = { (b.get_bar id0).1 with
        tracking := true, starts := (b.get_bar id0).1.starts + 1 } := by
      unfold Bars.hook_enqueue
      simp [htr, ht]
    rw [h1]
    refine ⟨?_, rfl, ?_⟩
    · exact Bars.total_of_find _ _ hfind
    · simp [hst]

theorem Bars.run_events_append (b : Bars) (xs ys : List BarsEvent) :
    b.run (xs ++ ys) = (b.run xs).run ys := by
  simp [Bars.run, List.foldl_append]

/-- After `g + 1` submissions to a fresh `Bars` the only bar is the total, its
counter has count 0 and has been grown `g` times, and one tracker runs. -/
theorem Bars.run_enqueues (g : ℕ) :
    Bars.attach.run (List.replicate (g + 1) BarsEvent.enqueue)
      = ⟨[(id0, Counter.add_step^[g] Counter.init)], true, 1⟩ := by
  induction g with
  | zero => rfl
  | succ g ih =>
    rw [List.replicate_succ', Bars.run_events_append, ih, Function.iterate_succ_apply']
    rfl

/-- Completions only advance the count of the total; the flag is the
`operator bool` of the counter after the last one. -/
theorem Bars.run_dequeues (c : Counter) (st : ℕ) (d : ℕ) :
    ∀ tr : Bool, (Bars.mk [(id0, c)] tr st).run (List.replicate (d + 1) BarsEvent.dequeue)
      = ⟨[(id0, Counter.incr^[d + 1] c)], (Counter.incr^[d + 1] c).toBool, st⟩ := by
  induction d with
  | zero => intro tr; rfl
  | succ d ih =>
    intro tr
    have e : Counter.incr^[d + 1 + 1] c = (Counter.incr^[d + 1] c).incr :=
      Function.iterate_succ_apply' _ _ _
    rw [List.replicate_succ', Bars.run_events_append, ih, e]
    rfl

end ThreadPool

/-- C6 (evaluation at the failing input): 534 tasks are submitted and all 534
complete.  The total counter then has count 534 and the value `1 - 2^-53`,
so the last dequeue leaves `tracking` set although `d = e`. -/
theorem bars_534_tasks_never_complete :
    (Bars.attach.run (List.replicate 534 BarsEvent.enqueue ++
        List.replicate 534 BarsEvent.dequeue)).tracking = true ∧
    (Bars.attach.run (List.replicate 534 BarsEvent.enqueue ++
        List.replicate 534 BarsEvent.dequeue)).total.count = 534 ∧
    (Bars.attach.run (List.replicate 534 BarsEvent.enqueue ++
        List.replicate 534 BarsEvent.dequeue)).total.toDouble = Dbl.fin (1 - 1 / 2 ^ 53) := by
  rw [Bars.run_events_append, Bars.run_enqueues 533, Bars.run_dequeues _ 1 533 true, step_after_533]
  decide!

/-! ## The pool as a state machine -/

namespace ThreadPool

theorem wrap64_succ (k : ℕ) (h : k + 1 < 2 ^ 64) : wrap64 ((k : ℤ) + 1) = k + 1 := by
  unfold wrap64
  have h1 : ((k : ℤ) + 1) % (2 : ℤ) ^ (64 : ℕ) = (k : ℤ) + 1 :=
    Int.emod_eq_of_lt (by omega) (by norm_num; omega)
  rw [h1]; omega

theorem wrap64_pred (k : ℕ) (h0 : 0 < k) (h : k < 2 ^ 64) : wrap64 ((k : ℤ) - 1) = k - 1 := by
  unfold wrap64
  have h1 : ((k : ℤ) - 1) % (2 : ℤ) ^ (64 : ℕ) = (k : ℤ) - 1 :=
    Int.emod_eq_of_lt (by omega) (by norm_num; omega)
  rw [h1]; omega

theorem task_set_exited : ∀ (ws : List Worker) (i : ℕ), ws[i]? = some Worker.idle →
    (ws.set i Worker.exited).filterMap Worker.task = ws.filterMap Worker.task := by
  intro ws
  induction ws with
  | nil => intro i h; simp at h
  | cons w ws ih =>
    intro i h
    cases i with
    | zero =>
      simp at h
      subst h
      simp [List.filterMap_cons, Worker.task]
    | succ j =>
      simp at h
      simp only [List.set_cons_succ, List.filterMap_cons]
      rw [ih j h]

theorem task_set_running (t : ℕ) : ∀ (ws : List Worker) (i : ℕ), ws[i]? = some Worker.idle →
    ((ws.set i (Worker.running t)).filterMap Worker.task).Perm (t :: ws.filterMap Worker.task) := by
  intro ws
  induction ws with
  | nil => intro i h; simp at h
  | cons w ws ih =>
    intro i h
    cases i with
    | zero =>
      simp at h
      subst h
      simp [List.filterMap_cons, Worker.task]
    | succ j =>
      simp at h
      simp only [List.set_cons_succ, List.filterMap_cons]
      cases hw : Worker.task w with
      | none => simpa using ih j h
      | some a =>
        simp only []
        exact ((ih j h).cons a).trans (List.Perm.swap t a _)

theorem task_set_idle (t : ℕ) : ∀ (ws : List Worker) (i : ℕ),
    ws[i]? = some (Worker.running t) →
    (ws.filterMap Worker.task).Perm (t :: (ws.set i Worker.idle).filterMap Worker.task) := by
  intro ws
  induction ws with
  | nil => intro i h; simp at h
  | cons w ws ih =>
    intro i h
    cases i with
    | zero =>
      simp at h
      subst h
      simp [List.filterMap_cons, Worker.task]
    | succ j =>
      simp at h
      simp only [List.set_cons_succ, List.filterMap_cons]
      cases hw : Worker.task w with
      | none => simpa using ih j h
      | some a =>
        simp only []
        exact ((ih j h).cons a).trans (List.Perm.swap t a _)

theorem filterMap_task_length_le (ws : List Worker) :
    (ws.filterMap Worker.task).length ≤ ws.length :=
  List.length_filterMap_le _ _

/-- One step keeps the accounting: the number of threads, `processing` as the
number of tasks in flight, and the submitted tasks as the finished, running and
queued ones together. -/
theorem Pool.step_invariant (n : ℕ) (hn : n < 2 ^ 64) (p q : Pool) (e : PoolEvent)
    (sub : List ℕ) (hlen : p.threads.length = n) (hproc : p.processing = p.inFlight.length)
    (hperm : sub.Perm (p.finished ++ p.inFlight ++ p.tasks)) (hstep : p.step e = some q) :
    q.threads.length = n ∧ q.processing = q.inFlight.length ∧
    (sub ++ Pool.submitted [e]).Perm (q.finished ++ q.inFlight ++ q.tasks) := by
  have hle : p.inFlight.length ≤ n := hlen ▸ filterMap_task_length_le p.threads
  cases e with
  | submit t =>
    simp only [Pool.step, Option.some.injEq] at hstep
    subst hstep
    refine ⟨hlen, hproc, ?_⟩
    simp only [Pool.submitted, Pool.enqueue, Pool.inFlight]
    rw [← List.append_assoc]
    exact hperm.append_right [t]
  | wake i =>
    simp only [Pool.step, Pool.wake] at hstep
    cases hw : p.threads[i]? with
    | none => rw [hw] at hstep; simp at hstep
    | some w =>
      rw [hw] at hstep
      cases w with
      | running t => simp at hstep
      | exited => simp at hstep
      | idle =>
        simp only [] at hstep
        by_cases hd : p.done = true
        · rw [if_pos hd] at hstep
          simp only [Option.some.injEq] at hstep
          subst hstep
          have hfl := task_set_exited p.threads i hw
          refine ⟨by simp [hlen], ?_, ?_⟩
          · simp only [Pool.inFlight]; rw [hfl]; exact hproc
          · simp only [Pool.submitted, List.append_nil, Pool.inFlight]
            rw [hfl]; exact hperm
        · rw [if_neg hd] at hstep
          cases ht : p.tasks with
          | nil => rw [ht] at hstep; simp at hstep
          | cons t rest =>
            rw [ht] at hstep
            simp only [Option.some.injEq] at hstep
            subst hstep
            have hfl := task_set_running t p.threads i hw
            have hl : ((p.threads.set i (Worker.running t)).filterMap Worker.task).length
                = p.inFlight.length + 1 := by
              rw [hfl.length_eq]; rfl
            have hl2 : ((p.threads.set i (Worker.running t)).filterMap Worker.task).length ≤ n := by
              have := filterMap_task_length_le (p.threads.set i (Worker.running t))
              simpa [hlen] using this
            refine ⟨by simp [hlen], ?_, ?_⟩
            · simp only [Pool.inFlight]
              rw [hl, hproc]
              exact wrap64_succ p.inFlight.length (by omega)
            · simp only [Pool.submitted, List.append_nil, Pool.inFlight]
              rw [ht] at hperm
              refine hperm.trans ?_
              rw [List.append_assoc, List.append_assoc]
              refine List.Perm.append_left _ ?_
              have h1 : (p.inFlight ++ t :: rest).Perm ((t :: p.inFlight) ++ rest) := by
                simp
              exact h1.trans (hfl.symm.append_right rest)
  | finish i =>
    simp only [Pool.step, Pool.finish] at hstep
    cases hw : p.threads[i]? with
    | none => rw [hw] at hstep; simp at hstep
    | some w =>
      rw [hw] at hstep
      cases w with
      | idle => simp at hstep
      | exited => simp at hstep
      | running t =>
        simp only [Option.some.injEq] at hstep
        subst hstep
        have hfl := task_set_idle t p.threads i hw
        have hl : p.inFlight.length
            = ((p.threads.set i Worker.idle).filterMap Worker.task).length + 1 := by
          unfold Pool.inFlight; rw [hfl.length_eq]; rfl
        refine ⟨by simp [hlen], ?_, ?_⟩
        · simp only [Pool.inFlight]
          rw [hproc]
          have := wrap64_pred p.inFlight.length (by omega) (by omega)
          rw [this]; omega
        · simp only [Pool.submitted, List.append_nil, Pool.inFlight]
          refine hperm.trans ?_
          rw [List.append_assoc, List.append_assoc, List.append_assoc]
          refine List.Perm.append_left _ ?_
          have h1 : (p.inFlight ++ p.tasks).Perm
              ((t :: (p.threads.set i Worker.idle).filterMap Worker.task) ++ p.tasks) :=
            List.Perm.append_right _ hfl
          simpa using h1
  | shutdown =>
    simp only [Pool.step, Option.some.injEq] at hstep
    subst hstep
    exact ⟨hlen, hproc, by simpa [Pool.submitted, Pool.shutdown, Pool.inFlight] using hperm⟩

theorem Pool.submitted_cons (e : PoolEvent) (evs : List PoolEvent) :
    Pool.submitted (e :: evs) = Pool.submitted [e] ++ Pool.submitted evs := by
  cases e <;> simp [Pool.submitted]

/-- The accounting holds along every run. -/
theorem Pool.run_invariant (n : ℕ) (hn : n < 2 ^ 64) :
    ∀ (evs : List PoolEvent) (p q : Pool) (sub : List ℕ), p.threads.length = n →
      p.processing = p.inFlight.length → sub.Perm (p.finished ++ p.inFlight ++ p.tasks) →
      p.run evs = some q →
      q.threads.length = n ∧ q.processing = q.inFlight.length ∧
      (sub ++ Pool.submitted evs).Perm (q.finished ++ q.inFlight ++ q.tasks) := by
  intro evs
  induction evs with
  | nil =>
    intro p q sub hlen hproc hperm hrun
    simp only [Pool.run, Option.some.injEq] at hrun
    subst hrun
    exact ⟨hlen, hproc, by simpa [Pool.submitted] using hperm⟩
  | cons e evs ih =>
    intro p q sub hlen hproc hperm hrun
    simp only [Pool.run] at hrun
    cases hs : p.step e with
    | none => rw [hs] at hrun; simp at hrun
    | some r =>
      rw [hs] at hrun
      simp only [Option.some_bind] at hrun
      obtain ⟨a, b, c⟩ := Pool.step_invariant n hn p r e sub hlen hproc hperm hs
      have := ih r q (sub ++ Pool.submitted [e]) a b c hrun
      rw [Pool.submitted_cons, ← List.append_assoc]
      exact this

theorem Pool.run_steps_append : ∀ (xs ys : List PoolEvent) (p : Pool),
    p.run (xs ++ ys) = (p.run xs).bind (fun q => q.run ys) := by
  intro xs
  induction xs with
  | nil => intro ys p; rfl
  | cons e xs ih =>
    intro ys p
    simp only [List.cons_append, Pool.run]
    cases p.step e with
    | none => rfl
    | some r => simp only [Option.some_bind]; exact ih ys r

theorem Pool.run_submits : ∀ (ts : List ℕ) (p : Pool),
    p.run (ts.map PoolEvent.submit) = some { p with tasks := p.tasks ++ ts } := by
  intro ts
  induction ts with
  | nil => intro p; simp [Pool.run]
  | cons t ts ih =>
    intro p
    simp only [List.map_cons, Pool.run, Pool.step, Option.some_bind]
    rw [ih]
    simp [Pool.enqueue]

theorem Pool.run_serve : ∀ (ts : List ℕ) (ws : List Worker) (fin : List ℕ),
    (Pool.mk false 0 ts (Worker.idle :: ws) fin).run (Pool.serve ts)
      = some (Pool.mk false 0 [] (Worker.idle :: ws) (fin ++ ts)) := by
  intro ts
  induction ts with
  | nil => intro ws fin; simp [Pool.run, Pool.serve]
  | cons t ts ih =>
    intro ws fin
    have h1 : (Pool.mk false 0 (t :: ts) (Worker.idle :: ws) fin).step (PoolEvent.wake 0)
        = some (Pool.mk false 1 ts (Worker.running t :: ws) fin) := by
      simp [Pool.step, Pool.wake, wrap64]
    have h2 : (Pool.mk false 1 ts (Worker.running t :: ws) fin).step (PoolEvent.finish 0)
        = some (Pool.mk false 0 ts (Worker.idle :: ws) (fin ++ [t])) := by
      simp [Pool.step, Pool.finish, wrap64]
    simp only [Pool.serve, Pool.run, h1, h2, Option.some_bind]
    rw [ih ws (fin ++ [t])]
    simp

theorem Pool.submitted_serve (xs : List PoolEvent) :
    ∀ ts : List ℕ, Pool.submitted (xs ++ Pool.serve ts) = Pool.submitted xs := by
  induction xs with
  | nil =>
    intro ts
    induction ts with
    | nil => rfl
    | cons t ts ih => simpa [Pool.serve, Pool.submitted] using ih
  | cons x xs ihx =>
    intro ts
    rw [List.cons_append, Pool.submitted_cons, ihx ts, ← Pool.submitted_cons]

/-- Every finite load can be served: on a pool with at least one thread, after
the submission of the tasks `ts` there is a schedule (thread 0 takes and
finishes them one by one) that ends in a state where `wait()` returns, all
tasks run. -/
theorem Pool.wait_reachable (n : ℕ) (ts : List ℕ) :
    (Pool.init (n + 1)).run (ts.map PoolEvent.submit ++ Pool.serve ts)
      = some (Pool.mk false 0 [] (List.replicate (n + 1) Worker.idle) ts) ∧
    (Pool.mk false 0 [] (List.replicate (n + 1) Worker.idle) ts).wait
      = some (Pool.mk false 0 [] (List.replicate (n + 1) Worker.idle) ts) ∧
    Pool.submitted (ts.map PoolEvent.submit ++ Pool.serve ts) = ts := by
  refine ⟨?_, by simp [Pool.wait], ?_⟩
  · rw [Pool.run_steps_append, Pool.run_submits]
    simp only [Option.some_bind, Pool.init, List.nil_append, List.replicate_succ]
    have := Pool.run_serve ts (List.replicate n Worker.idle) []
    simpa using this
  · rw [Pool.submitted_serve]
    induction ts with
    | nil => rfl
    | cons t ts ih => simp [Pool.submitted, ih]

end ThreadPool

/-- C7: in every run of the pool (any number of submissions, wakes and
finishes, from the state left by the constructor), `processing` equals the
number of threads that have popped a task and not yet finished it; a finishing
thread therefore decrements a positive `processing` (no underflow of the
`size_t`); and `Pool::wait()` returns only in a state with an empty queue,
`processing == 0` and no task in flight, in which every submitted task has
run. -/
theorem pool_wait_returns_only_when_idle (nthreads : ℕ) (hn : nthreads < 2 ^ 64)
    (evs : List PoolEvent) (p : Pool) (hrun : (Pool.init nthreads).run evs = some p) :
    p.processing = p.inFlight.length ∧
    (∀ i q, p.finish i = some q → 0 < p.processing ∧ q.processing + 1 = p.processing) ∧
    (∀ q, p.wait = some q →
      q = p ∧ p.tasks = [] ∧ p.processing = 0 ∧ p.inFlight = [] ∧
      (Pool.submitted evs).Perm p.finished) := by
  have hinit : ([] : List ℕ).Perm
      ((Pool.init nthreads).finished ++ (Pool.init nthreads).inFlight ++ (Pool.init nthreads).tasks) := by
    have : (List.replicate nthreads Worker.idle).filterMap Worker.task = [] := by
      rw [List.filterMap_eq_nil_iff]
      intro w hw
      rw [List.eq_of_mem_replicate hw]; rfl
    simp [Pool.init, Pool.inFlight, this]
  have hproc0 : (Pool.init nthreads).processing = (Pool.init nthreads).inFlight.length := by
    have : (List.replicate nthreads Worker.idle).filterMap Worker.task = [] := by
      rw [List.filterMap_eq_nil_iff]
      intro w hw
      rw [List.eq_of_mem_replicate hw]; rfl
    simp [Pool.init, Pool.inFlight, this]
  obtain ⟨hlen, hproc, hperm⟩ := Pool.run_invariant nthreads hn evs (Pool.init nthreads) p []
    (by simp [Pool.init]) hproc0 hinit hrun
  rw [List.nil_append] at hperm
  refine ⟨hproc, ?_, ?_⟩
  · intro i q hq
    obtain ⟨_, hq2, _⟩ := Pool.step_invariant nthreads hn p q (PoolEvent.finish i) _ hlen hproc
      (List.Perm.refl _) hq
    simp only [Pool.finish] at hq
    cases hw : p.threads[i]? with
    | none => rw [hw] at hq; simp at hq
    | some w =>
      rw [hw] at hq
      cases w with
      | idle => simp at hq
      | exited => simp at hq
      | running t =>
        simp only [Option.some.injEq] at hq
        have hfl := (task_set_idle t p.threads i hw).length_eq
        have hqf : q.inFlight = (p.threads.set i Worker.idle).filterMap Worker.task := by
          rw [← hq]; rfl
        have : p.inFlight.length = q.inFlight.length + 1 := by
          rw [hqf]; unfold Pool.inFlight; rw [hfl]; rfl
        omega
  · intro q hq
    unfold Pool.wait at hq
    by_cases hc : (p.tasks.isEmpty && p.processing == 0) = true
    · rw [if_pos hc] at hq
      simp only [Option.some.injEq] at hq
      simp only [Bool.and_eq_true, List.isEmpty_iff, beq_iff_eq] at hc
      obtain ⟨ht, hp0⟩ := hc
      have hfl : p.inFlight = [] := List.length_eq_zero.mp (by omega)
      refine ⟨hq.symm, ht, hp0, hfl, ?_⟩
      rw [ht, hfl] at hperm
      simpa using hperm
    · rw [if_neg hc] at hq
      simp at hq

/-- C7 (witness): three tasks on two threads; after the ninth step `wait()`
returns, with the queue empty, `processing == 0` and the tasks 2, 1, 3 run. -/
theorem pool_wait_returns_only_when_idle_witness :
    ((2 : ℕ) < 2 ^ 64 ∧
      (Pool.init 2).run [PoolEvent.submit 1, PoolEvent.submit 2, PoolEvent.submit 3,
        PoolEvent.wake 0, PoolEvent.wake 1, PoolEvent.finish 1, PoolEvent.wake 1,
        PoolEvent.finish 0, PoolEvent.finish 1]
      = some ⟨false, 0, [], [Worker.idle, Worker.idle], [2, 1, 3]⟩ ∧
      Pool.wait ⟨false, 0, [], [Worker.idle, Worker.idle], [2, 1, 3]⟩
        = some ⟨false, 0, [], [Worker.idle, Worker.idle], [2, 1, 3]⟩) ∧
    ((Pool.mk false 0 [] [Worker.idle, Worker.idle] [2, 1, 3]).processing
        = (Pool.mk false 0 [] [Worker.idle, Worker.idle] [2, 1, 3]).inFlight.length ∧
      (∀ i q, (Pool.mk false 0 [] [Worker.idle, Worker.idle] [2, 1, 3]).finish i = some q →
        0 < (Pool.mk false 0 [] [Worker.idle, Worker.idle] [2, 1, 3]).processing ∧
        q.processing + 1 = (Pool.mk false 0 [] [Worker.idle, Worker.idle] [2, 1, 3]).processing) ∧
      (∀ q, (Pool.mk false 0 [] [Worker.idle, Worker.idle] [2, 1, 3]).wait = some q →
        q = Pool.mk false 0 [] [Worker.idle, Worker.idle] [2, 1, 3] ∧
        (Pool.mk false 0 [] [Worker.idle, Worker.idle] [2, 1, 3]).tasks = [] ∧
        (Pool.mk false 0 [] [Worker.idle, Worker.idle] [2, 1, 3]).processing = 0 ∧
        (Pool.mk false 0 [] [Worker.idle, Worker.idle] [2, 1, 3]).inFlight = [] ∧
        (Pool.submitted [PoolEvent.submit 1, PoolEvent.submit 2, PoolEvent.submit 3,
          PoolEvent.wake 0, PoolEvent.wake 1, PoolEvent.finish 1, PoolEvent.wake 1,
          PoolEvent.finish 0, PoolEvent.finish 1]).Perm
          (Pool.mk false 0 [] [Worker.idle, Worker.idle] [2, 1, 3]).finished)) :=
  ⟨⟨by decide, by decide, by decide⟩,
    pool_wait_returns_only_when_idle 2 (by decide)
      [PoolEvent.submit 1, PoolEvent.submit 2, PoolEvent.submit 3,
        PoolEvent.wake 0, PoolEvent.wake 1, PoolEvent.finish 1, PoolEvent.wake 1,
        PoolEvent.finish 0, PoolEvent.finish 1]
      ⟨false, 0, [], [Worker.idle, Worker.idle], [2, 1, 3]⟩ (by decide)⟩

namespace ThreadPool

/-- After `done` is set one step never pops the queue: it stays `done`, the
queue only grows by the new submissions, and the tasks that have been started
(finished or in flight) stay the same. -/
theorem Pool.step_after_shutdown (p q : Pool) (e : PoolEvent) (hd : p.done = true)
    (hstep : p.step e = some q) :
    q.done = true ∧ q.tasks = p.tasks ++ Pool.submitted [e] ∧
    (q.finished ++ q.inFlight).Perm (p.finished ++ p.inFlight) := by
  cases e with
  | submit t =>
    simp only [Pool.step, Option.some.injEq] at hstep
    subst hstep
    exact ⟨hd, rfl, List.Perm.refl _⟩
  | wake i =>
    simp only [Pool.step, Pool.wake] at hstep
    cases hw : p.threads[i]? with
    | none => rw [hw] at hstep; simp at hstep
    | some w =>
      rw [hw] at hstep
      cases w with
      | running t => simp at hstep
      | exited => simp at hstep
      | idle =>
        simp only [] at hstep
        rw [if_pos hd] at hstep
        simp only [Option.some.injEq] at hstep
        subst hstep
        refine ⟨hd, by simp [Pool.submitted], ?_⟩
        simp only [Pool.inFlight]
        rw [task_set_exited p.threads i hw]
  | finish i =>
    simp only [Pool.step, Pool.finish] at hstep
    cases hw : p.threads[i]? with
    | none => rw [hw] at hstep; simp at hstep
    | some w =>
      rw [hw] at hstep
      cases w with
      | idle => simp at hstep
      | exited => simp at hstep
      | running t =>
        simp only [Option.some.injEq] at hstep
        subst hstep
        refine ⟨hd, by simp [Pool.submitted], ?_⟩
        simp only [Pool.inFlight]
        rw [List.append_assoc]
        refine List.Perm.append_left _ ?_
        simpa using (task_set_idle t p.threads i hw).symm
  | shutdown =>
    simp only [Pool.step, Option.some.injEq] at hstep
    subst hstep
    exact ⟨rfl, by simp [Pool.submitted, Pool.shutdown], List.Perm.refl _⟩

theorem Pool.run_after_shutdown : ∀ (evs : List PoolEvent) (p q : Pool), p.done = true →
    p.run evs = some q →
    q.done = true ∧ q.tasks = p.tasks ++ Pool.submitted evs ∧
    (q.finished ++ q.inFlight).Perm (p.finished ++ p.inFlight) := by
  intro evs
  induction evs with
  | nil =>
    intro p q hd hrun
    simp only [Pool.run, Option.some.injEq] at hrun
    subst hrun
    exact ⟨hd, by simp [Pool.submitted], List.Perm.refl _⟩
  | cons e evs ih =>
    intro p q hd hrun
    simp only [Pool.run] at hrun
    cases hs : p.step e with
    | none => rw [hs] at hrun; simp at hrun
    | some r =>
      rw [hs] at hrun
      simp only [Option.some_bind] at hrun
      obtain ⟨a, b, c⟩ := Pool.step_after_shutdown p r e hd hs
      obtain ⟨a', b', c'⟩ := ih r q a hrun
      refine ⟨a', ?_, c'.trans c⟩
      rw [b', b, List.append_assoc, ← Pool.submitted_cons]

end ThreadPool

/-- C8: once `done` is set, an idle thread that wakes returns from its loop:
the step is possible whatever the queue holds, it leaves the queue,
`processing`, the finished tasks and the tasks in flight as they were, and
the thread has exited.  Along every further run the queue keeps all the tasks
it held (only new submissions are appended) and the tasks started, finished or
in flight, stay the same: no queued task is ever executed. -/
theorem shutdown_never_runs_queued_task (p : Pool) (hd : p.done = true) :
    (∀ i, p.threads[i]? = some Worker.idle →
      ∃ q, p.wake i = some q ∧ q.tasks = p.tasks ∧ q.processing = p.processing ∧
        q.finished = p.finished ∧ q.inFlight = p.inFlight ∧
        q.threads = p.threads.set i Worker.exited ∧ q.done = true) ∧
    (∀ evs q, p.run evs = some q →
      q.done = true ∧ q.tasks = p.tasks ++ Pool.submitted evs ∧
      (q.finished ++ q.inFlight).Perm (p.finished ++ p.inFlight)) := by
  constructor
  · intro i hi
    refine ⟨{ p with threads := p.threads.set i Worker.exited }, ?_, rfl, rfl, rfl, ?_, rfl, hd⟩
    · simp only [Pool.wake]
      rw [hi]
      simp only []
      rw [if_pos hd]
    · simp only [Pool.inFlight]
      exact task_set_exited p.threads i hi
  · intro evs q hrun
    exact Pool.run_after_shutdown evs p q hd hrun

/-- C8 (witness): two idle threads, the tasks 1 and 2 still queued when `done`
is set. -/
theorem shutdown_never_runs_queued_task_witness :
    (Pool.mk true 0 [1, 2] [Worker.idle, Worker.idle] []).done = true ∧
    ((∀ i, (Pool.mk true 0 [1, 2] [Worker.idle, Worker.idle] []).threads[i]? = some Worker.idle →
      ∃ q, (Pool.mk true 0 [1, 2] [Worker.idle, Worker.idle] []).wake i = some q ∧
        q.tasks = (Pool.mk true 0 [1, 2] [Worker.idle, Worker.idle] []).tasks ∧
        q.processing = (Pool.mk true 0 [1, 2] [Worker.idle, Worker.idle] []).processing ∧
        q.finished = (Pool.mk true 0 [1, 2] [Worker.idle, Worker.idle] []).finished ∧
        q.inFlight = (Pool.mk true 0 [1, 2] [Worker.idle, Worker.idle] []).inFlight ∧
        q.threads = (Pool.mk true 0 [1, 2] [Worker.idle, Worker.idle] []).threads.set i Worker.exited ∧
        q.done = true) ∧
    (∀ evs q, (Pool.mk true 0 [1, 2] [Worker.idle, Worker.idle] []).run evs = some q →
      q.done = true ∧
      q.tasks = (Pool.mk true 0 [1, 2] [Worker.idle, Worker.idle] []).tasks ++ Pool.submitted evs ∧
      (q.finished ++ q.inFlight).Perm
        ((Pool.mk true 0 [1, 2] [Worker.idle, Worker.idle] []).finished ++
          (Pool.mk true 0 [1, 2] [Worker.idle, Worker.idle] []).inFlight))) :=
  ⟨rfl, shutdown_never_runs_queued_task (Pool.mk true 0 [1, 2] [Worker.idle, Worker.idle] []) rfl⟩

/-! ## The bar renderer -/

namespace Progress

theorem wrap32_id (n : ℤ) (h0 : -(2 : ℤ) ^ (31 : ℕ) ≤ n) (h1 : n < (2 : ℤ) ^ (31 : ℕ)) :
    wrap32 n = n := by
  unfold wrap32
  have : (n + (2 : ℤ) ^ (31 : ℕ)) % (2 : ℤ) ^ (32 : ℕ) = n + (2 : ℤ) ^ (31 : ℕ) :=
    Int.emod_eq_of_lt (by omega) (by norm_num at h1 ⊢; omega)
  rw [this]; ring

theorem BarLine.cells_length (l : BarLine) : l.cells.length = l.full + 1 + l.spaces := by
  simp [BarLine.cells]; omega

/-- The clamped fraction is a finite value of `[0, 1]`, whatever the argument
(NaN and `-inf` give `0.0`, `+inf` gives `1.0`). -/
theorem clamp_range (fraction : Dbl) :
    ∃ f : ℚ, clamp fraction = Dbl.fin f ∧ 0 ≤ f ∧ f ≤ 1 := by
  cases fraction with
  | fin q =>
    by_cases h0 : 0 < q
    · by_cases h1 : 1 < q
      · exact ⟨1, by simp [clamp, Dbl.lt, h0, h1], by norm_num, le_refl _⟩
      · exact ⟨q, by simp [clamp, Dbl.lt, h0, h1], h0.le, not_lt.mp h1⟩
    · exact ⟨0, by simp [clamp, Dbl.lt, h0], le_refl _, by norm_num⟩
  | pinf => exact ⟨1, by simp [clamp, Dbl.lt], by norm_num, le_refl _⟩
  | ninf => exact ⟨0, by simp [clamp, Dbl.lt], le_refl _, by norm_num⟩
  | nan => exact ⟨0, by simp [clamp, Dbl.lt], le_refl _, by norm_num⟩

/-- The idiom `int k = f * W + 0.5` for a fraction `f` of `[0, 1]` and an `int`
`W ≥ 0`: the result is the floor of the twice rounded `f * W + 0.5`, and lies
in `0 .. W`. -/
theorem scaled_round (f : ℚ) (W : ℤ) (hf0 : 0 ≤ f) (hf1 : f ≤ 1) (hW0 : 0 ≤ W)
    (hW : W < (2 : ℤ) ^ (31 : ℕ)) :
    Dbl.toInt32 (Dbl.add (Dbl.mul (Dbl.fin f) (Dbl.ofInt W)) (Dbl.fin (1 / 2)))
      = ⌊Binary64.rnd (Binary64.rnd (f * W) + 1 / 2)⌋ ∧
    0 ≤ ⌊Binary64.rnd (Binary64.rnd (f * W) + 1 / 2)⌋ ∧
    ⌊Binary64.rnd (Binary64.rnd (f * W) + 1 / 2)⌋ ≤ W := by
  have hp64 : (2 : ℚ) ^ (64 : ℤ) = 18446744073709551616 := by norm_num
  have hWq0 : (0 : ℚ) ≤ (W : ℚ) := by exact_mod_cast hW0
  have hWq : (W : ℚ) < 2147483648 := by
    have : (W : ℚ) < (((2 : ℤ) ^ (31 : ℕ) : ℤ) : ℚ) := by exact_mod_cast hW
    norm_num at this; exact this
  -- the conversion of W is exact
  have hWexact : Binary64.rnd (W : ℚ) = (W : ℚ) := by
    have := Binary64.rnd_half_int (2 * W) (by omega) (by norm_num at hW ⊢; omega)
    have e : (((2 * W : ℤ)) : ℚ) / 2 = (W : ℚ) := by push_cast; ring
    rwa [e] at this
  have hWfin : Dbl.ofInt W = Dbl.fin (W : ℚ) := by
    unfold Dbl.ofInt
    rw [Dbl.round_of_bounds hWq0 (by rw [hp64]; linarith), hWexact]
  -- the product
  have hx0 : 0 ≤ f * W := mul_nonneg hf0 hWq0
  have hxW : f * W ≤ W := by
    calc f * W ≤ 1 * W := mul_le_mul_of_nonneg_right hf1 hWq0
      _ = W := one_mul _
  have hmul : Dbl.mul (Dbl.fin f) (Dbl.fin (W : ℚ)) = Dbl.fin (Binary64.rnd (f * W)) := by
    show Dbl.round (f * W) = _
    exact Dbl.round_of_bounds hx0 (by rw [hp64]; linarith)
  have hr0 : 0 ≤ Binary64.rnd (f * W) := Binary64.rnd_nonneg hx0
  have hrW : Binary64.rnd (f * W) ≤ W := by
    have := Binary64.rnd_mono hx0 hxW
    rwa [hWexact] at this
  -- the sum with 0.5
  have hy0 : 0 ≤ Binary64.rnd (f * W) + 1 / 2 := by linarith
  have hadd : Dbl.add (Dbl.fin (Binary64.rnd (f * W))) (Dbl.fin (1 / 2))
      = Dbl.fin (Binary64.rnd (Binary64.rnd (f * W) + 1 / 2)) := by
    show Dbl.round (Binary64.rnd (f * W) + 1 / 2) = _
    exact Dbl.round_of_bounds hy0 (by rw [hp64]; linarith)
  have hs0 : 0 ≤ Binary64.rnd (Binary64.rnd (f * W) + 1 / 2) := Binary64.rnd_nonneg hy0
  have hsW : Binary64.rnd (Binary64.rnd (f * W) + 1 / 2) ≤ (W : ℚ) + 1 / 2 := by
    have := Binary64.rnd_mono hy0 (by linarith : Binary64.rnd (f * W) + 1 / 2 ≤ (W : ℚ) + 1 / 2)
    have hex := Binary64.rnd_half_int (2 * W + 1) (by omega) (by norm_num at hW ⊢; omega)
    have e : (((2 * W + 1 : ℤ)) : ℚ) / 2 = (W : ℚ) + 1 / 2 := by push_cast; ring
    rw [e] at hex
    rwa [hex] at this
  have hfl0 : 0 ≤ ⌊Binary64.rnd (Binary64.rnd (f * W) + 1 / 2)⌋ := Int.floor_nonneg.mpr hs0
  have hflW : ⌊Binary64.rnd (Binary64.rnd (f * W) + 1 / 2)⌋ ≤ W := by
    have : ⌊Binary64.rnd (Binary64.rnd (f * W) + 1 / 2)⌋ < W + 1 := by
      rw [Int.floor_lt]; push_cast; linarith
    omega
  refine ⟨?_, hfl0, hflW⟩
  rw [hWfin, hmul, hadd]
  simp only [Dbl.toInt32]
  rw [if_pos hs0, if_pos ⟨by omega, by omega⟩]

end Progress

/-- C9 (as amended): for every `double` fraction and every width with
`1 ≤ width < 2^28`, `Bar` first clamps the fraction: a value of `[0, 1]` is used
as it is, a value below `0` and `-inf` become `0.0`, a value above `1` and
`+inf` become `1.0`, and NaN becomes `0.0`.  With `f` the clamped fraction and
`fill` the truncation of the twice rounded `f * (8*width - 1) + 0.5`, it prints
`fill / 8` times `bar[7]`, once `bar[fill % 8]` and `width - fill / 8 - 1`
blanks, `width` cells in all, where `0 ≤ fill ≤ 8*width - 1` and hence
`fill / 8 ≤ width - 1`; the percentage is the truncation of the twice rounded
`f * 100 + 0.5`, an integer of `0 .. 100`. -/
theorem bar_prints_width_cells (fraction : Dbl) (width : ℤ) (h1 : 1 ≤ width)
    (h2 : width < (2 : ℤ) ^ (28 : ℕ)) :
    (∀ q : ℚ, fraction = Dbl.fin q → 0 ≤ q → q ≤ 1 → clamp fraction = Dbl.fin q) ∧
    (∀ q : ℚ, fraction = Dbl.fin q → q < 0 → clamp fraction = Dbl.fin 0) ∧
    (∀ q : ℚ, fraction = Dbl.fin q → 1 < q → clamp fraction = Dbl.fin 1) ∧
    (fraction = Dbl.ninf → clamp fraction = Dbl.fin 0) ∧
    (fraction = Dbl.pinf → clamp fraction = Dbl.fin 1) ∧
    (fraction = Dbl.nan → clamp fraction = Dbl.fin 0) ∧
    ∃ f : ℚ, clamp fraction = Dbl.fin f ∧ 0 ≤ f ∧ f ≤ 1 ∧
      barFill fraction width
        = ⌊Binary64.rnd (Binary64.rnd (f * ((8 * width - 1 : ℤ) : ℚ)) + 1 / 2)⌋ ∧
      0 ≤ barFill fraction width ∧ barFill fraction width ≤ 8 * width - 1 ∧
      barFill fraction width / 8 ≤ width - 1 ∧
      ((Bar fraction width).full : ℤ) = barFill fraction width / 8 ∧
      (Bar fraction width).part = barFill fraction width % 8 ∧
      0 ≤ (Bar fraction width).part ∧ (Bar fraction width).part ≤ 7 ∧
      ((Bar fraction width).spaces : ℤ) = width - barFill fraction width / 8 - 1 ∧
      ((Bar fraction width).cells.length : ℤ) = width ∧
      (Bar fraction width).perc = ⌊Binary64.rnd (Binary64.rnd (f * 100) + 1 / 2)⌋ ∧
      0 ≤ (Bar fraction width).perc ∧ (Bar fraction width).perc ≤ 100 := by
  refine ⟨?_, ?_, ?_, ?_, ?_, ?_, ?_⟩
  · intro q hq h0 h1
    subst hq
    rcases h0.eq_or_lt with h | h
    · subst h; simp [clamp, Dbl.lt]
    · simp [clamp, Dbl.lt, h, not_lt.mpr h1]
  · intro q hq h0
    subst hq
    simp [clamp, Dbl.lt, not_lt.mpr h0.le]
  · intro q hq h1
    subst hq
    simp [clamp, Dbl.lt, h1, (by linarith : (0 : ℚ) < q)]
  · intro h; subst h; simp [clamp, Dbl.lt]
  · intro h; subst h; simp [clamp, Dbl.lt]
  · intro h; subst h; simp [clamp, Dbl.lt]
  obtain ⟨f, hf, hf0, hf1⟩ := clamp_range fraction
  have hw8 : wrap32 (wrap32 (8 * width) - 1) = 8 * width - 1 := by
    rw [wrap32_id (8 * width) (by omega) (by norm_num at h2 ⊢; omega)]
    exact wrap32_id _ (by omega) (by norm_num at h2 ⊢; omega)
  obtain ⟨a1, a2, a3⟩ := scaled_round f (8 * width - 1) hf0 hf1 (by omega)
    (by norm_num at h2 ⊢; omega)
  obtain ⟨b1, b2, b3⟩ := scaled_round f 100 hf0 hf1 (by norm_num) (by norm_num)
  have hfill : barFill fraction width
      = ⌊Binary64.rnd (Binary64.rnd (f * ((8 * width - 1 : ℤ) : ℚ)) + 1 / 2)⌋ := by
    unfold barFill; rw [hf, hw8]; exact a1
  have hperc : barPerc fraction = ⌊Binary64.rnd (Binary64.rnd (f * 100) + 1 / 2)⌋ := by
    unfold barPerc; rw [hf]
    have := b1
    simpa using this
  have hfill0 : 0 ≤ barFill fraction width := hfill ▸ a2
  have hfillW : barFill fraction width ≤ 8 * width - 1 := hfill ▸ a3
  have hdiv : barFill fraction width / 8 ≤ width - 1 := by omega
  have hdiv0 : 0 ≤ barFill fraction width / 8 := by omega
  have htdiv : Int.tdiv (barFill fraction width) 8 = barFill fraction width / 8 :=
    Int.tdiv_eq_ediv hfill0 (by norm_num)
  have htmod : Int.tmod (barFill fraction width) 8 = barFill fraction width % 8 :=
    Int.tmod_eq_emod hfill0 (by norm_num)
  have hfull : ((Bar fraction width).full : ℤ) = barFill fraction width / 8 := by
    simp only [Bar]; rw [htdiv]; exact Int.toNat_of_nonneg hdiv0
  have hspaces : ((Bar fraction width).spaces : ℤ) = width - barFill fraction width / 8 - 1 := by
    simp only [Bar]; rw [htdiv]
    rw [wrap32_id (width - barFill fraction width / 8) (by omega) (by norm_num at h2 ⊢; omega)]
    rw [wrap32_id _ (by omega) (by norm_num at h2 ⊢; omega)]
    exact Int.toNat_of_nonneg (by omega)
  have hpart : (Bar fraction width).part = barFill fraction width % 8 := by
    simp only [Bar]; exact htmod
  refine ⟨f, hf, hf0, hf1, hfill, hfill0, hfillW, hdiv, hfull, hpart, ?_, ?_, hspaces, ?_, ?_, ?_, ?_⟩
  · rw [hpart]; omega
  · rw [hpart]; omega
  · rw [BarLine.cells_length]; push_cast; rw [hfull, hspaces]; ring
  · show barPerc fraction = _
    exact hperc
  · show 0 ≤ barPerc fraction
    rw [hperc]; simpa using b2
  · show barPerc fraction ≤ 100
    rw [hperc]; simpa using b3

/-- C9 (counterexample to the claim as stated): two inputs.  For the double
`0.004999999999999999 = 2882303761517117 * 2^-59` the product `100 * fraction`
is below `1/2`, exactly and after rounding, so `round(100 * fraction) = 0`; but
the sum with `0.5` rounds up to `1.0` and `Bar` prints `1`.  For
`width = 2^28 + 1` the `int` product `8*width` is out of range; with the wrapped
value `8*width - 1` is negative, `Bar(1.0, width)` computes
`fill = -2147483640`, prints no full block, and `536870912` cells instead of
`width = 268435457`. -/
theorem bar_rounding_and_overflow :
    (Binary64.IsDouble (2882303761517117 / 2 ^ 59) ∧
      ⌊(100 : ℚ) * (2882303761517117 / 2 ^ 59) + 1 / 2⌋ = 0 ∧
      Binary64.rnd ((2882303761517117 / 2 ^ 59) * 100) < 1 / 2 ∧
      (Bar (Dbl.fin (2882303761517117 / 2 ^ 59))).perc = 1) ∧
    ((1 : ℤ) ≤ 2 ^ 28 + 1 ∧
      barFill (Dbl.fin 1) (2 ^ 28 + 1) = -2147483640 ∧
      (Bar (Dbl.fin 1) (2 ^ 28 + 1)).full = 0 ∧
      (Bar (Dbl.fin 1) (2 ^ 28 + 1)).cells.length = 536870912 ∧
      ((Bar (Dbl.fin 1) (2 ^ 28 + 1)).cells.length : ℤ) ≠ 2 ^ 28 + 1) := by
  rw [Progress.BarLine.cells_length]
  unfold Binary64.IsDouble
  decide!

/-- C9 (witness): the amended statement at `Bar(0.3)` of the sample, width 40;
the line shows 30%, twelve full blocks, `bar[0]` and 27 blanks. -/
theorem bar_prints_width_cells_witness :
    ((1 : ℤ) ≤ 40 ∧ (40 : ℤ) < (2 : ℤ) ^ (28 : ℕ) ∧
      Bar (Dbl.fin (5404319552844595 / 2 ^ 54)) 40 = ⟨30, 12, 0, 27⟩) ∧
    (∀ q : ℚ, Dbl.fin (5404319552844595 / 2 ^ 54) = Dbl.fin q → 0 ≤ q → q ≤ 1 →
      clamp (Dbl.fin (5404319552844595 / 2 ^ 54)) = Dbl.fin q) ∧
    (∀ q : ℚ, Dbl.fin (5404319552844595 / 2 ^ 54) = Dbl.fin q → q < 0 →
      clamp (Dbl.fin (5404319552844595 / 2 ^ 54)) = Dbl.fin 0) ∧
    (∀ q : ℚ, Dbl.fin (5404319552844595 / 2 ^ 54) = Dbl.fin q → 1 < q →
      clamp (Dbl.fin (5404319552844595 / 2 ^ 54)) = Dbl.fin 1) ∧
    (Dbl.fin (5404319552844595 / 2 ^ 54) = Dbl.ninf →
      clamp (Dbl.fin (5404319552844595 / 2 ^ 54)) = Dbl.fin 0) ∧
    (Dbl.fin (5404319552844595 / 2 ^ 54) = Dbl.pinf →
      clamp (Dbl.fin (5404319552844595 / 2 ^ 54)) = Dbl.fin 1) ∧
    (Dbl.fin (5404319552844595 / 2 ^ 54) = Dbl.nan →
      clamp (Dbl.fin (5404319552844595 / 2 ^ 54)) = Dbl.fin 0) ∧
    ∃ f : ℚ, clamp (Dbl.fin (5404319552844595 / 2 ^ 54)) = Dbl.fin f ∧ 0 ≤ f ∧ f ≤ 1 ∧
      barFill (Dbl.fin (5404319552844595 / 2 ^ 54)) 40
        = ⌊Binary64.rnd (Binary64.rnd (f * ((8 * 40 - 1 : ℤ) : ℚ)) + 1 / 2)⌋ ∧
      0 ≤ barFill (Dbl.fin (5404319552844595 / 2 ^ 54)) 40 ∧
      barFill (Dbl.fin (5404319552844595 / 2 ^ 54)) 40 ≤ 8 * 40 - 1 ∧
      barFill (Dbl.fin (5404319552844595 / 2 ^ 54)) 40 / 8 ≤ 40 - 1 ∧
      ((Bar (Dbl.fin (5404319552844595 / 2 ^ 54)) 40).full : ℤ)
        = barFill (Dbl.fin (5404319552844595 / 2 ^ 54)) 40 / 8 ∧
      (Bar (Dbl.fin (5404319552844595 / 2 ^ 54)) 40).part
        = barFill (Dbl.fin (5404319552844595 / 2 ^ 54)) 40 % 8 ∧
      0 ≤ (Bar (Dbl.fin (5404319552844595 / 2 ^ 54)) 40).part ∧
      (Bar (Dbl.fin (5404319552844595 / 2 ^ 54)) 40).part ≤ 7 ∧
      ((Bar (Dbl.fin (5404319552844595 / 2 ^ 54)) 40).spaces : ℤ)
        = 40 - barFill (Dbl.fin (5404319552844595 / 2 ^ 54)) 40 / 8 - 1 ∧
      ((Bar (Dbl.fin (5404319552844595 / 2 ^ 54)) 40).cells.length : ℤ) = 40 ∧
      (Bar (Dbl.fin (5404319552844595 / 2 ^ 54)) 40).perc
        = ⌊Binary64.rnd (Binary64.rnd (f * 100) + 1 / 2)⌋ ∧
      0 ≤ (Bar (Dbl.fin (5404319552844595 / 2 ^ 54)) 40).perc ∧
      (Bar (Dbl.fin (5404319552844595 / 2 ^ 54)) 40).perc ≤ 100 :=
  ⟨⟨by decide, by decide, by decide!⟩,
    bar_prints_width_cells (Dbl.fin (5404319552844595 / 2 ^ 54)) 40 (by decide) (by decide)⟩

/-- C10 (evaluation at the failing input): after one task was submitted and
has completed, with no clear in between, the next call of the enqueue hook is
not the first submission of its round; it finds `tracking` false, so it leaves
the total counter at count 1 and step 1 (growth would make the step `1/2`),
sets `tracking` and starts a second tracker. -/
theorem enqueue_after_completion_does_not_grow :
    Bars.noEnqueueSinceClear [BarsEvent.enqueue, BarsEvent.dequeue] = false ∧
    (Bars.attach.run [BarsEvent.enqueue, BarsEvent.dequeue]).tracking = false ∧
    (Bars.attach.run [BarsEvent.enqueue, BarsEvent.dequeue]).total = ⟨1, Dbl.fin 1⟩ ∧
    (Bars.attach.run [BarsEvent.enqueue, BarsEvent.dequeue]).hook_enqueue.total
      = ⟨1, Dbl.fin 1⟩ ∧
    (Bars.attach.run [BarsEvent.enqueue, BarsEvent.dequeue]).hook_enqueue.tracking = true ∧
    (Bars.attach.run [BarsEvent.enqueue, BarsEvent.dequeue]).hook_enqueue.starts = 2 ∧
    (Counter.mk 1 (Dbl.fin 1)).add_step.get_step = Dbl.fin (1 / 2) := by
  decide!

/-! ## Printing the bars -/

namespace ThreadPool

theorem mapFind_mapSet_ne (c : Counter) (k : ThreadId) : ∀ (m : BarMap) (id : ThreadId),
    id ≠ k → mapFind (mapSet m k c) id = mapFind m id := by
  intro m
  induction m with
  | nil =>
    intro id h
    simp [mapSet, mapFind, Ne.symm h]
  | cons kc m ih =>
    intro id h
    obtain ⟨k0, c0⟩ := kc
    simp only [mapSet]
    by_cases h1 : k < k0
    · rw [if_pos h1]; simp [mapFind, Ne.symm h]
    · rw [if_neg h1]
      by_cases h2 : k = k0
      · rw [if_pos h2]
        subst h2
        simp [mapFind, Ne.symm h]
      · rw [if_neg h2]
        simp only [mapFind]
        rw [ih id h]

theorem filter_mapSet_self (c : Counter) (k : ThreadId) : ∀ m : BarMap,
    (mapSet m k c).filter (fun e => decide (e.1 ≠ k)) = m.filter (fun e => decide (e.1 ≠ k)) := by
  intro m
  induction m with
  | nil => simp [mapSet]
  | cons kc m ih =>
    obtain ⟨k0, c0⟩ := kc
    simp only [mapSet]
    by_cases h1 : k < k0
    · rw [if_pos h1]; simp
    · rw [if_neg h1]
      by_cases h2 : k = k0
      · rw [if_pos h2]
        subst h2
        simp
      · rw [if_neg h2]
        simp only [List.filter_cons]
        rw [ih]

/-- The first loop of `print` adds, in key order, the rounded product
`step * value` of every bar but the one of `id0` whose value is `< 1`. -/
theorem Bars.printLoop_eq_foldl (s : Dbl) : ∀ (m : BarMap) (t : Dbl),
    Bars.printLoop s m t
      = (((m.filter (fun e => decide (e.1 ≠ id0))).map (fun e => e.2.toDouble)).filter
          (fun p => Dbl.lt p (Dbl.fin 1))).foldl (fun t p => Dbl.add t (Dbl.mul s p)) t := by
  intro m
  induction m with
  | nil => intro t; rfl
  | cons kc m ih =>
    intro t
    obtain ⟨k, c⟩ := kc
    simp only [Bars.printLoop]
    by_cases h1 : k = id0
    · rw [if_pos h1, ih]
      simp [h1]
    · rw [if_neg h1]
      by_cases h2 : Dbl.lt c.toDouble (Dbl.fin 1) = true
      · rw [if_pos h2, ih]
        simp [h1, h2]
      · rw [if_neg h2, ih]
        simp [h1, h2]

/-- The statement `bars[id0]` leaves every bar that exists as it is, and the
per-worker bars are the same before and after. -/
theorem Bars.get_bar_keeps (b : Bars) :
    (∀ id c, mapFind b.bars id = some c → mapFind (b.get_bar id0).1.bars id = some c) ∧
    (∀ id, id ≠ id0 → mapFind (b.get_bar id0).1.bars id = mapFind b.bars id) ∧
    (b.get_bar id0).1.bars.filter (fun e => decide (e.1 ≠ id0))
      = b.bars.filter (fun e => decide (e.1 ≠ id0)) ∧
    (b.get_bar id0).1.total = b.total := by
  have htot : (b.get_bar id0).1.total = b.total :=
    Bars.total_of_find _ _ (Bars.get_bar_find b id0).1
  unfold Bars.get_bar at htot ⊢
  cases h : mapFind b.bars id0 with
  | some c0 =>
    rw [h] at htot
    exact ⟨fun id c hc => hc, fun id _ => rfl, rfl, htot⟩
  | none =>
    rw [h] at htot
    refine ⟨?_, ?_, ?_, htot⟩
    · intro id c hc
      have hne : id ≠ id0 := by
        intro he; rw [he, h] at hc; exact Option.noConfusion hc
      show mapFind (mapSet b.bars id0 Counter.init) id = some c
      rw [mapFind_mapSet_ne _ _ _ _ hne]; exact hc
    · intro id hne
      exact mapFind_mapSet_ne _ _ _ _ hne
    · exact filter_mapSet_self _ _ _

end ThreadPool

namespace Binary64

theorem rnd_idem (q : ℚ) : rnd (rnd q) = rnd q := by
  by_cases h : q < 0
  · have hq : 0 ≤ -q := by linarith
    have hr := rndAbs_nonneg hq
    have hdef : rnd q = -rndAbs (-q) := by unfold rnd; rw [if_pos h]
    rw [hdef]
    rcases hr.eq_or_lt with h0 | hpos
    · rw [← h0]; simp [rnd_zero]
    · have hneg : -rndAbs (-q) < 0 := by linarith
      unfold rnd
      rw [if_pos hneg, neg_neg, rndAbs_idem hq]
  · exact isDouble_rnd (not_lt.mp h)

end Binary64

namespace Dbl

theorem round_zero : round 0 = fin 0 := by
  unfold round
  simp only [Binary64.rnd_zero]
  rw [if_neg (by norm_num), if_neg (by norm_num)]

/-- Adding `0.0` to the result of a rounded operation changes nothing. -/
theorem round_add_zero (q : ℚ) :
    add (round q) (fin 0) = round q ∧ add (fin 0) (round q) = round q := by
  unfold round
  simp only []
  by_cases h1 : (2 : ℚ) ^ (1024 : ℕ) ≤ Binary64.rnd q
  · rw [if_pos h1]; exact ⟨rfl, rfl⟩
  · rw [if_neg h1]
    by_cases h2 : Binary64.rnd q ≤ -(2 : ℚ) ^ (1024 : ℕ)
    · rw [if_pos h2]; exact ⟨rfl, rfl⟩
    · rw [if_neg h2]
      constructor
      · show round (Binary64.rnd q + 0) = _
        unfold round
        simp only [add_zero, Binary64.rnd_idem]
        rw [if_neg h1, if_neg h2]
      · show round (0 + Binary64.rnd q) = _
        unfold round
        simp only [zero_add, Binary64.rnd_idem]
        rw [if_neg h1, if_neg h2]

/-- Adding `0.0` to a product changes nothing. -/
theorem mul_add_zero (d e : Dbl) :
    add (mul d e) (fin 0) = mul d e ∧ add (fin 0) (mul d e) = mul d e := by
  cases d <;> cases e <;> simp only [mul] <;>
    first
    | exact round_add_zero _
    | exact ⟨rfl, rfl⟩
    | (split_ifs <;> exact ⟨rfl, rfl⟩)

end Dbl

namespace Binary64

/-- Absolute error of one rounding of a non-negative value: at most the
relative error `2^-53`, or half the subnormal spacing. -/
theorem rnd_err {x : ℚ} (hx : 0 ≤ x) :
    |rnd x - x| ≤ x * (2 : ℚ) ^ (-53 : ℤ) + (2 : ℚ) ^ (-1075 : ℤ) := by
  have hη : (0 : ℚ) < (2 : ℚ) ^ (-1075 : ℤ) := two_zpow_pos _
  have h2 : (2 : ℚ) ≠ 0 := by norm_num
  by_cases hn : (2 : ℚ) ^ (-1022 : ℤ) ≤ x
  · have := rnd_relerr hn
    linarith
  · push_neg at hn
    rcases hx.eq_or_lt with h0 | hpos
    · rw [← h0, rnd_zero, sub_zero, abs_zero, zero_mul, zero_add]; exact hη.le
    · obtain ⟨lo, _⟩ := exponent_spec x hpos
      have he : exponent x < -1022 := by
        have : (2 : ℚ) ^ exponent x < (2 : ℚ) ^ (-1022 : ℤ) := lt_of_le_of_lt lo hn
        exact (zpow_lt_zpow_iff_right₀ (by norm_num : (1 : ℚ) < 2)).mp this
      have hu : ulp x = (2 : ℚ) ^ (-1074 : ℤ) := by
        unfold ulp; rw [max_eq_right he.le]; norm_num
      have hg := ulp_pos x
      have herr := roundHalfEven_err (x / ulp x)
      have hrew : rnd x - x = ((roundHalfEven (x / ulp x) : ℚ) - x / ulp x) * ulp x := by
        rw [rnd_of_nonneg hx]; unfold rndAbs; field_simp
      rw [hrew, abs_mul, abs_of_pos hg]
      have hhalf : 1 / 2 * ulp x = (2 : ℚ) ^ (-1075 : ℤ) := by
        rw [hu]
        have : (1 / 2 : ℚ) = (2 : ℚ) ^ (-1 : ℤ) := by norm_num
        rw [this, ← zpow_add₀ h2]; norm_num
      have hxu : 0 ≤ x * (2 : ℚ) ^ (-53 : ℤ) := mul_nonneg hx (two_zpow_pos _).le
      calc |(roundHalfEven (x / ulp x) : ℚ) - x / ulp x| * ulp x
          ≤ 1 / 2 * ulp x := mul_le_mul_of_nonneg_right herr hg.le
        _ = (2 : ℚ) ^ (-1075 : ℤ) := hhalf
        _ ≤ x * (2 : ℚ) ^ (-53 : ℤ) + (2 : ℚ) ^ (-1075 : ℤ) := by linarith

/-- Integers below `2^53` are binary64 values. -/
theorem rnd_natCast (n : ℕ) (h : n < 2 ^ 53) : rnd (n : ℚ) = (n : ℚ) := by
  rcases Nat.eq_zero_or_pos n with h0 | hpos
  · rw [h0]; simp [rnd_zero]
  · rw [rnd_of_nonneg (by positivity)]
    have := rndAbs_exact (n : ℤ) 0 (by exact_mod_cast hpos) (by exact_mod_cast h) (by norm_num)
    simpa using this

end Binary64

namespace ThreadPool

/-- The accumulation `total += step * partial` over finite values `q` of
`[0, 1]`, for a step of `[0, 1]` and a running total below `2^53`: the result
is finite, and each turn adds at most `(K + 1) * 2^-53 + 2 * 2^-1075` to the
distance from the exact sum. -/
theorem accumulate_err (s : ℚ) (hs0 : 0 ≤ s) (hs1 : s ≤ 1) (K : ℕ) (hK : K < 2 ^ 53) :
    ∀ (qs : List ℚ) (t E : ℚ) (V : ℕ), 0 ≤ t → t ≤ V → V + qs.length ≤ K →
      (∀ q ∈ qs, 0 ≤ q ∧ q ≤ 1) →
      ∃ T : ℚ,
        (qs.map Dbl.fin).foldl (fun t p => Dbl.add t (Dbl.mul (Dbl.fin s) p)) (Dbl.fin t)
          = Dbl.fin T ∧
        0 ≤ T ∧ T ≤ K ∧
        |T - (E + s * qs.sum)| ≤ |t - E| + qs.length *
          ((K + 1) * (2 : ℚ) ^ (-53 : ℤ) + 2 * (2 : ℚ) ^ (-1075 : ℤ)) := by
  have hp64 : (2 : ℚ) ^ (64 : ℤ) = 18446744073709551616 := by norm_num
  have hKq : (K : ℚ) < 9007199254740992 := by
    have h : (K : ℚ) < (2 : ℚ) ^ (53 : ℕ) := by exact_mod_cast hK
    have e : (2 : ℚ) ^ (53 : ℕ) = 9007199254740992 := by norm_num
    rw [e] at h; exact h
  intro qs
  induction qs with
  | nil =>
    intro t E V ht0 htV hVK _
    refine ⟨t, rfl, ht0, ?_, ?_⟩
    · have : (V : ℚ) ≤ (K : ℚ) := by
        have : V ≤ K := by simpa using hVK
        exact_mod_cast this
      linarith
    · simp
  | cons q qs ih =>
    intro t E V ht0 htV hVK hq
    obtain ⟨hq0, hq1⟩ := hq q (List.mem_cons_self _ _)
    have hlen : V + 1 + qs.length ≤ K := by
      simp only [List.length_cons] at hVK; omega
    have hV1 : ((V + 1 : ℕ) : ℚ) ≤ (K : ℚ) := by
      have : V + 1 ≤ K := by omega
      exact_mod_cast this
    -- the product
    have hsq0 : 0 ≤ s * q := mul_nonneg hs0 hq0
    have hsq1 : s * q ≤ 1 := by
      calc s * q ≤ 1 * 1 := mul_le_mul hs1 hq1 hq0 (by norm_num)
        _ = 1 := one_mul 1
    have hmul : Dbl.mul (Dbl.fin s) (Dbl.fin q) = Dbl.fin (Binary64.rnd (s * q)) := by
      show Dbl.round (s * q) = _
      exact Dbl.round_of_bounds hsq0 (by rw [hp64]; linarith)
    have ha0 : 0 ≤ Binary64.rnd (s * q) := Binary64.rnd_nonneg hsq0
    have ha1 : Binary64.rnd (s * q) ≤ 1 := by
      have := Binary64.rnd_mono hsq0 hsq1
      rwa [Binary64.rnd_one] at this
    -- the sum
    have hta0 : 0 ≤ t + Binary64.rnd (s * q) := by linarith
    have htaV : t + Binary64.rnd (s * q) ≤ ((V + 1 : ℕ) : ℚ) := by push_cast; linarith
    have hadd : Dbl.add (Dbl.fin t) (Dbl.fin (Binary64.rnd (s * q)))
        = Dbl.fin (Binary64.rnd (t + Binary64.rnd (s * q))) := by
      show Dbl.round (t + Binary64.rnd (s * q)) = _
      exact Dbl.round_of_bounds hta0 (by rw [hp64]; linarith)
    have ht10 : 0 ≤ Binary64.rnd (t + Binary64.rnd (s * q)) := Binary64.rnd_nonneg hta0
    have ht1V : Binary64.rnd (t + Binary64.rnd (s * q)) ≤ ((V + 1 : ℕ) : ℚ) := by
      have := Binary64.rnd_mono hta0 htaV
      rwa [Binary64.rnd_natCast (V + 1) (by omega)] at this
    obtain ⟨T, hT, hT0, hTK, herr⟩ :=
      ih (Binary64.rnd (t + Binary64.rnd (s * q))) (E + s * q) (V + 1) ht10 ht1V hlen
        (fun x hx => hq x (List.mem_cons_of_mem _ hx))
    refine ⟨T, ?_, hT0, hTK, ?_⟩
    · simp only [List.map_cons, List.foldl_cons]
      rw [hmul, hadd]
      exact hT
    · -- the two roundings of this turn
      obtain ⟨u, hu⟩ : ∃ u : ℚ, u = (2 : ℚ) ^ (-53 : ℤ) := ⟨_, rfl⟩
      obtain ⟨η, hη⟩ : ∃ η : ℚ, η = (2 : ℚ) ^ (-1075 : ℤ) := ⟨_, rfl⟩
      have hu0 : 0 ≤ u := by rw [hu]; exact (Binary64.two_zpow_pos _).le
      have e1 := abs_le.mp (Binary64.rnd_err hsq0)
      have e2 := abs_le.mp (Binary64.rnd_err hta0)
      rw [← hu, ← hη] at e1 e2 herr ⊢
      have b1 : s * q * u ≤ u := by
        have := mul_le_mul_of_nonneg_right hsq1 hu0
        linarith only [this]
      have b2 : (t + Binary64.rnd (s * q)) * u ≤ (K : ℚ) * u :=
        mul_le_mul_of_nonneg_right (htaV.trans hV1) hu0
      have hstep : |Binary64.rnd (t + Binary64.rnd (s * q)) - (E + s * q)|
          ≤ |t - E| + ((K + 1) * u + 2 * η) := by
        have e3 := abs_le.mp (le_refl |t - E|)
        rw [abs_le]
        constructor
        · linarith only [e1.1, e2.1, e3.1, b1, b2]
        · linarith only [e1.2, e2.2, e3.2, b1, b2]
      have hsum : E + s * (q :: qs).sum = E + s * q + s * qs.sum := by
        rw [List.sum_cons]; ring
      rw [hsum]
      have hcast : (((q :: qs).length : ℕ) : ℚ) = (qs.length : ℚ) + 1 := by
        simp only [List.length_cons]; push_cast; ring
      rw [hcast]
      calc |T - (E + s * q + s * qs.sum)|
          ≤ |Binary64.rnd (t + Binary64.rnd (s * q)) - (E + s * q)|
              + (qs.length : ℚ) * ((K + 1) * u + 2 * η) := herr
        _ ≤ |t - E| + ((K + 1) * u + 2 * η) + (qs.length : ℚ) * ((K + 1) * u + 2 * η) := by
            linarith only [hstep]
        _ = |t - E| + ((qs.length : ℚ) + 1) * ((K + 1) * u + 2 * η) := by ring

end ThreadPool

namespace ThreadPool

theorem Bars.printTotal_eq_foldl (b : Bars) :
    b.printTotal
      = b.inProgress.foldl (fun t p => Dbl.add t (Dbl.mul b.total.get_step p)) b.total.toDouble := by
  unfold Bars.printTotal Bars.inProgress
  rw [Bars.printLoop_eq_foldl, (Bars.get_bar_keeps b).2.2.1]
  rfl

/-- A value in progress is the value of some counter. -/
theorem Bars.inProgress_value (b : Bars) (p : Dbl) (hp : p ∈ b.inProgress) :
    ∃ c : Counter, p = c.toDouble := by
  unfold Bars.inProgress at hp
  rw [List.mem_filter, List.mem_map] at hp
  obtain ⟨⟨e, _, he⟩, _⟩ := hp
  exact ⟨e.2, he.symm⟩

end ThreadPool

/-- The loop of `print` in exact arithmetic: adding `s * p` for every `p` in turn
gives `v + s * (sum of the p)`. -/
theorem exact_accumulation (s : ℚ) : ∀ (ps : List ℚ) (v : ℚ),
    ps.foldl (fun t p => t + s * p) v = v + s * ps.sum := by
  intro ps
  induction ps with
  | nil => intro v; simp
  | cons p ps ih => intro v; rw [List.foldl_cons, ih, List.sum_cons]; ring

/-- C11 (as amended): for every bar map, the value `print` hands to `Bar` for
the total is the total counter's own value to which the product `step * value`
of every per-worker counter whose value is `< 1` has been added, one after the
other in key order, every product and every sum rounded; bars with a value
that is not `< 1` contribute nothing, so two bar maps with the same total
counter and the same values in progress render the same total.  When the step
is in `[0, 1]`, the own value `v` is in `[0, V]` and the `k` values in progress
are finite and non-negative (`V + k < 2^53`), the rendered total is finite and
within `k * (V + k + 2) * 2^-53` of the value plus the step times the sum of
the values in progress; with at most one value in progress and a finite step
it is that expression evaluated in `double` arithmetic.  `print` modifies no
counter: the total counter, `tracking` and the tracker are as before, every
bar keeps its counter, and the per-worker bars are the same (`bars[id0]` only
creates the bar of the total when it is missing). -/
theorem print_total_accumulates (b : Bars) :
    b.printTotal
      = b.inProgress.foldl (fun t p => Dbl.add t (Dbl.mul b.total.get_step p)) b.total.toDouble ∧
    (∀ (v s : ℚ) (qs : List ℚ) (V : ℕ), b.total.toDouble = Dbl.fin v →
      b.total.get_step = Dbl.fin s → 0 ≤ s → s ≤ 1 → 0 ≤ v → v ≤ V →
      b.inProgress = qs.map Dbl.fin → (∀ q ∈ qs, 0 ≤ q) → V + qs.length < 2 ^ 53 →
      ∃ T : ℚ, b.printTotal = Dbl.fin T ∧
        |T - (v + s * qs.sum)| ≤ qs.length * (V + qs.length + 2) * (2 : ℚ) ^ (-53 : ℤ)) ∧
    (b.inProgress.length ≤ 1 → (∃ s : ℚ, b.total.get_step = Dbl.fin s) →
      b.printTotal = b.claimedTotal) ∧
    (∀ b' : Bars, b'.total = b.total → b'.inProgress = b.inProgress →
      b'.printTotal = b.printTotal) ∧
    b.print.2.lines.head? = some (Bar b.printTotal) ∧
    b.print.1.total = b.total ∧ b.print.1.tracking = b.tracking ∧
    b.print.1.starts = b.starts ∧
    (∀ id c, mapFind b.bars id = some c → mapFind b.print.1.bars id = some c) ∧
    (∀ id, id ≠ id0 → mapFind b.print.1.bars id = mapFind b.bars id) := by
  obtain ⟨hk1, hk2, _, hk4⟩ := Bars.get_bar_keeps b
  obtain ⟨_, htr, hst⟩ := Bars.get_bar_find b id0
  refine ⟨Bars.printTotal_eq_foldl b, ?_, ?_, ?_, rfl, hk4, htr, hst, hk1, hk2⟩
  · intro v s qs V hv hs hs0 hs1 hv0 hvV hq hnn hK
    have hq1 : ∀ q ∈ qs, 0 ≤ q ∧ q ≤ 1 := by
      intro q hmem
      refine ⟨hnn q hmem, ?_⟩
      have hin : Dbl.fin q ∈ b.inProgress := by
        rw [hq]; exact List.mem_map_of_mem _ hmem
      unfold Bars.inProgress at hin
      have hlt := (List.mem_filter.mp hin).2
      have : q < 1 := by simpa [Dbl.lt] using hlt
      exact this.le
    obtain ⟨T, hT, _, _, herr⟩ := accumulate_err s hs0 hs1 (V + qs.length) hK qs v v V hv0 hvV
      le_rfl hq1
    refine ⟨T, ?_, ?_⟩
    · rw [Bars.printTotal_eq_foldl, hv, hs, hq]; exact hT
    · obtain ⟨u, hu⟩ : ∃ u : ℚ, u = (2 : ℚ) ^ (-53 : ℤ) := ⟨_, rfl⟩
      have hη : 2 * (2 : ℚ) ^ (-1075 : ℤ) ≤ (2 : ℚ) ^ (-53 : ℤ) := by
        have e : 2 * (2 : ℚ) ^ (-1075 : ℤ) = (2 : ℚ) ^ (-1074 : ℤ) := by
          rw [show (-1074 : ℤ) = 1 + (-1075) by norm_num, zpow_add₀ (by norm_num : (2 : ℚ) ≠ 0)]
          norm_num
        rw [e]
        exact zpow_le_zpow_right₀ (by norm_num) (by norm_num)
      rw [sub_self, abs_zero, zero_add] at herr
      have hlen0 : (0 : ℚ) ≤ (qs.length : ℚ) := by positivity
      have hc : ((((V + qs.length : ℕ)) : ℚ) + 1) * (2 : ℚ) ^ (-53 : ℤ) + 2 * (2 : ℚ) ^ (-1075 : ℤ)
          ≤ ((V : ℚ) + qs.length + 2) * (2 : ℚ) ^ (-53 : ℤ) := by
        push_cast
        rw [← hu] at hη ⊢
        linarith only [hη]
      calc |T - (v + s * qs.sum)|
          ≤ (qs.length : ℚ) * ((((V + qs.length : ℕ) : ℚ) + 1) * (2 : ℚ) ^ (-53 : ℤ)
              + 2 * (2 : ℚ) ^ (-1075 : ℤ)) := herr
        _ ≤ (qs.length : ℚ) * (((V : ℚ) + qs.length + 2) * (2 : ℚ) ^ (-53 : ℤ)) :=
            mul_le_mul_of_nonneg_left hc hlen0
        _ = qs.length * (V + qs.length + 2) * (2 : ℚ) ^ (-53 : ℤ) := by ring
  · intro hlen hs
    obtain ⟨s, hs⟩ := hs
    rw [Bars.printTotal_eq_foldl]
    unfold Bars.claimedTotal
    cases hl : b.inProgress with
    | nil =>
      simp only [List.foldl_nil]
      rw [hs]
      show _ = Dbl.add _ (Dbl.round (s * 0))
      rw [mul_zero, Dbl.round_zero]
      exact ((Dbl.mul_add_zero _ _).1).symm
    | cons p ps =>
      cases ps with
      | cons p2 ps2 => rw [hl] at hlen; simp at hlen
      | nil =>
        simp only [List.foldl_cons, List.foldl_nil]
        obtain ⟨c, hc⟩ := Bars.inProgress_value b p (by rw [hl]; exact List.mem_singleton.mpr rfl)
        rw [hc]
        show _ = Dbl.add _ (Dbl.mul _ (Dbl.add (Dbl.fin 0) (Dbl.mul _ _)))
        rw [(Dbl.mul_add_zero _ _).2]
        rfl
  · intro b' h1 h2
    rw [Bars.printTotal_eq_foldl b', Bars.printTotal_eq_foldl b, h1, h2]

/-- C11 (counterexample to the claim as stated): the total counter has count 1
and step `1/2` (two tasks submitted, one completed), thread 1 holds a counter of
3 steps advanced twice (value `0.6666666666666666`) and thread 2 a counter of
12 steps advanced once (value `0.08333333333333333`).  `print` renders
`(0.5 + 0.5*0.6666666666666666) + 0.5*0.08333333333333333 = 0.875 - 2^-53`,
shown as `87%`, whereas the value plus the step times the sum of the two values
is `0.875` in `double` arithmetic and `0.875 - 3 * 2^-57` exactly (the nearest
`double` is `0.875`), shown as `88%`. -/
theorem print_total_differs_from_sum :
    (Bars.mk [(id0, Counter.init.add_step.incr), (1, (Counter.init 3).incr.incr),
        (2, (Counter.init 12).incr)] true 1).total.toDouble = Dbl.fin (1 / 2) ∧
    (Bars.mk [(id0, Counter.init.add_step.incr), (1, (Counter.init 3).incr.incr),
        (2, (Counter.init 12).incr)] true 1).total.get_step = Dbl.fin (1 / 2) ∧
    (Bars.mk [(id0, Counter.init.add_step.incr), (1, (Counter.init 3).incr.incr),
        (2, (Counter.init 12).incr)] true 1).inProgress
      = [Dbl.fin (6004799503160661 / 2 ^ 53), Dbl.fin (6004799503160661 / 2 ^ 56)] ∧
    (Bars.mk [(id0, Counter.init.add_step.incr), (1, (Counter.init 3).incr.incr),
        (2, (Counter.init 12).incr)] true 1).printTotal = Dbl.fin (7 / 8 - 1 / 2 ^ 53) ∧
    (Bars.mk [(id0, Counter.init.add_step.incr), (1, (Counter.init 3).incr.incr),
        (2, (Counter.init 12).incr)] true 1).claimedTotal = Dbl.fin (7 / 8) ∧
    (1 / 2 + 1 / 2 * (6004799503160661 / 2 ^ 53 + 6004799503160661 / 2 ^ 56) : ℚ)
      = 7 / 8 - 3 / 2 ^ 57 ∧
    Dbl.round (7 / 8 - 3 / 2 ^ 57) = Dbl.fin (7 / 8) ∧
    (Bars.mk [(id0, Counter.init.add_step.incr), (1, (Counter.init 3).incr.incr),
        (2, (Counter.init 12).incr)] true 1).printTotal
      ≠ (Bars.mk [(id0, Counter.init.add_step.incr), (1, (Counter.init 3).incr.incr),
        (2, (Counter.init 12).incr)] true 1).claimedTotal ∧
    (Bars.mk [(id0, Counter.init.add_step.incr), (1, (Counter.init 3).incr.incr),
        (2, (Counter.init 12).incr)] true 1).print.2.lines.head?
      = some (BarLine.mk 87 34 7 5) ∧
    Bar (Dbl.fin (7 / 8)) = BarLine.mk 88 34 7 5 := by
  decide!

/-- C11 (witness): the error bound of the amended statement at the bar map of
two tasks submitted and one completed (own value `1/2`, step `1/2`), with the
two values `0.6666666666666666` and `0.08333333333333333` in progress: the
rendered total is within `10 * 2^-53` of `1/2 + 1/2 * (sum of the two)`. -/
theorem print_total_accumulates_witness :
    ((Bars.mk [(id0, Counter.init.add_step.incr), (1, (Counter.init 3).incr.incr),
          (2, (Counter.init 12).incr)] true 1).total.toDouble = Dbl.fin (1 / 2) ∧
      (Bars.mk [(id0, Counter.init.add_step.incr), (1, (Counter.init 3).incr.incr),
          (2, (Counter.init 12).incr)] true 1).total.get_step = Dbl.fin (1 / 2) ∧
      (0 : ℚ) ≤ 1 / 2 ∧ (1 / 2 : ℚ) ≤ 1 ∧ (1 / 2 : ℚ) ≤ ((1 : ℕ) : ℚ) ∧
      (Bars.mk [(id0, Counter.init.add_step.incr), (1, (Counter.init 3).incr.incr),
          (2, (Counter.init 12).incr)] true 1).inProgress
        = [(6004799503160661 / 2 ^ 53 : ℚ), 6004799503160661 / 2 ^ 56].map Dbl.fin ∧
      (∀ q ∈ [(6004799503160661 / 2 ^ 53 : ℚ), 6004799503160661 / 2 ^ 56], 0 ≤ q) ∧
      1 + [(6004799503160661 / 2 ^ 53 : ℚ), 6004799503160661 / 2 ^ 56].length < 2 ^ 53) ∧
    ∃ T : ℚ,
      (Bars.mk [(id0, Counter.init.add_step.incr), (1, (Counter.init 3).incr.incr),
          (2, (Counter.init 12).incr)] true 1).printTotal = Dbl.fin T ∧
      |T - (1 / 2 + 1 / 2 * [(6004799503160661 / 2 ^ 53 : ℚ), 6004799503160661 / 2 ^ 56].sum)|
        ≤ ([(6004799503160661 / 2 ^ 53 : ℚ), 6004799503160661 / 2 ^ 56].length : ℚ)
            * (((1 : ℕ) : ℚ)
              + ([(6004799503160661 / 2 ^ 53 : ℚ), 6004799503160661 / 2 ^ 56].length : ℚ) + 2)
            * (2 : ℚ) ^ (-53 : ℤ) :=
  ⟨⟨by decide!, by decide!, by norm_num, by norm_num, by norm_num, by decide!,
      by intro q hq; simp at hq; rcases hq with rfl | rfl <;> norm_num, by decide⟩,
    (print_total_accumulates (Bars.mk [(id0, Counter.init.add_step.incr),
        (1, (Counter.init 3).incr.incr), (2, (Counter.init 12).incr)] true 1)).2.1
      (1 / 2) (1 / 2) [(6004799503160661 / 2 ^ 53 : ℚ), 6004799503160661 / 2 ^ 56] 1
      (by decide!) (by decide!) (by norm_num) (by norm_num) (by norm_num) (by norm_num)
      (by decide!) (by intro q hq; simp at hq; rcases hq with rfl | rfl <;> norm_num)
      (by decide)⟩

/-! ## The step under growth -/

namespace Binary64

/-- One `add_step` in relative terms: when `s * N` is within `R` of `1`, the sum
`1 + s` is rounded to `A` and the quotient `s / A` to `t`, each with relative
error `u`, then `t * (N + 1)` is within `R + 3u` of `1`. -/
theorem growth_relerr {u s A t N R : ℚ} (hu0 : 0 < u) (hu1 : u ≤ 1 / 16) (hs : 0 < s)
    (hN : 0 < N) (hR0 : 0 ≤ R) (hR : R ≤ 1 / 8) (hx : |s * N - 1| ≤ R)
    (hA1 : (1 + s) * (1 - u) ≤ A) (hA2 : A ≤ (1 + s) * (1 + u))
    (ht1 : s / A * (1 - u) ≤ t) (ht2 : t ≤ s / A * (1 + u)) :
    |t * (N + 1) - 1| ≤ R + 3 * u := by
  have hx' := abs_le.mp hx
  have h1s : 0 < 1 + s := by linarith
  have h1u : 0 < 1 - u := by linarith
  have hApos : 0 < A := lt_of_lt_of_le (mul_pos h1s h1u) hA1
  have hq0 : 0 < s / A := div_pos hs hApos
  have ht0 : 0 < t := lt_of_lt_of_le (mul_pos hq0 h1u) ht1
  have hN1 : 0 < N + 1 := by linarith
  have hRs : 0 ≤ R * s := mul_nonneg hR0 hs.le
  have huR : u * R ≤ u * (1 / 8) := mul_le_mul_of_nonneg_left hR hu0.le
  have huu : u * u ≤ u * (1 / 16) := mul_le_mul_of_nonneg_left hu1 hu0.le
  have huR0 : 0 ≤ u * R := mul_nonneg hu0.le hR0
  have huu0 : 0 ≤ u * u := mul_nonneg hu0.le hu0.le
  have htA2 : t * A ≤ s * (1 + u) := by
    have := mul_le_mul_of_nonneg_right ht2 hApos.le
    have e : s / A * (1 + u) * A = s * (1 + u) := by field_simp
    rw [e] at this; exact this
  have htA1 : s * (1 - u) ≤ t * A := by
    have := mul_le_mul_of_nonneg_right ht1 hApos.le
    have e : s / A * (1 - u) * A = s * (1 - u) := by field_simp
    rw [e] at this; exact this
  rw [abs_le]
  constructor
  · -- lower bound
    have hP : 0 < (1 + s) * (1 + u) := mul_pos h1s (by linarith)
    have c1 : s * (1 - u) ≤ t * ((1 + s) * (1 + u)) :=
      htA1.trans (mul_le_mul_of_nonneg_left hA2 ht0.le)
    have c2 : s * (1 - u) * (N + 1) ≤ t * ((1 + s) * (1 + u)) * (N + 1) :=
      mul_le_mul_of_nonneg_right c1 hN1.le
    have k1 : (1 - R) * (1 + s) ≤ s * (N + 1) := by linarith only [hx'.1, hRs]
    have k1' : (1 - R) * (1 + s) * (1 - u) ≤ s * (N + 1) * (1 - u) :=
      mul_le_mul_of_nonneg_right k1 h1u.le
    have k2 : (1 - R - 3 * u) * (1 + u) ≤ (1 - R) * (1 - u) := by
      linarith only [huR0, huu0, hu0]
    have k2' : (1 - R - 3 * u) * (1 + u) * (1 + s) ≤ (1 - R) * (1 - u) * (1 + s) :=
      mul_le_mul_of_nonneg_right k2 h1s.le
    have c3 : (1 - R - 3 * u) * ((1 + s) * (1 + u)) ≤ t * (N + 1) * ((1 + s) * (1 + u)) := by
      linarith only [c2, k1', k2']
    have := le_of_mul_le_mul_right c3 hP
    linarith only [this]
  · -- upper bound
    have hP : 0 < (1 + s) * (1 - u) := mul_pos h1s h1u
    have c1 : t * ((1 + s) * (1 - u)) ≤ s * (1 + u) :=
      (mul_le_mul_of_nonneg_left hA1 ht0.le).trans htA2
    have c2 : t * ((1 + s) * (1 - u)) * (N + 1) ≤ s * (1 + u) * (N + 1) :=
      mul_le_mul_of_nonneg_right c1 hN1.le
    have k1 : s * (N + 1) ≤ (1 + R) * (1 + s) := by linarith only [hx'.2, hRs]
    have k1' : s * (N + 1) * (1 + u) ≤ (1 + R) * (1 + s) * (1 + u) :=
      mul_le_mul_of_nonneg_right k1 (by linarith only [hu0])
    have k2 : (1 + R) * (1 + u) ≤ (1 + R + 3 * u) * (1 - u) := by
      linarith only [huR, huu, hu0]
    have k2' : (1 + R) * (1 + u) * (1 + s) ≤ (1 + R + 3 * u) * (1 - u) * (1 + s) :=
      mul_le_mul_of_nonneg_right k2 h1s.le
    have c3 : t * (N + 1) * ((1 + s) * (1 - u)) ≤ (1 + R + 3 * u) * ((1 + s) * (1 - u)) := by
      linarith only [c2, k1', k2']
    have := le_of_mul_le_mul_right c3 hP
    linarith only [this]

end Binary64

namespace Progress

/-- One `add_step` on a counter whose step `s` is a positive binary64 value
with `s * N` within `R ≤ 1/8` of `1` (`1 ≤ N ≤ 2^64`): the new step is again a
positive binary64 value, and times `N + 1` it is within `R + 3 * 2^-53` of `1`. -/
theorem Counter.add_step_relerr (c : Counter) (s N R : ℚ) (hs : c.step = Dbl.fin s)
    (h0 : 0 < s) (hN1 : 1 ≤ N) (hN2 : N ≤ (2 : ℚ) ^ (64 : ℤ)) (hR0 : 0 ≤ R) (hR : R ≤ 1 / 8)
    (hx : |s * N - 1| ≤ R) :
    ∃ t : ℚ, c.add_step.step = Dbl.fin t ∧ Binary64.IsDouble t ∧ 0 < t ∧
      |t * (N + 1) - 1| ≤ R + 3 * (2 : ℚ) ^ (-53 : ℤ) := by
  have hp64 : (2 : ℚ) ^ (64 : ℤ) = 18446744073709551616 := by norm_num
  rw [hp64] at hN2
  obtain ⟨u, hu⟩ : ∃ u : ℚ, u = (2 : ℚ) ^ (-53 : ℤ) := ⟨_, rfl⟩
  have hu0 : (0 : ℚ) < u := by rw [hu]; exact Binary64.two_zpow_pos _
  have hu1 : u ≤ 1 / 16 := by rw [hu]; norm_num
  have hmin : (2 : ℚ) ^ (-1022 : ℤ) ≤ (2 : ℚ) ^ (-70 : ℤ) :=
    zpow_le_zpow_right₀ (by norm_num) (by norm_num)
  have hN0 : 0 < N := by linarith
  have hx' := abs_le.mp hx
  -- the range of the step
  have hs2 : s ≤ 2 := by
    have : s * 1 ≤ s * N := mul_le_mul_of_nonneg_left hN1 h0.le
    linarith only [this, hx'.2, hR]
  have hslow : (2 : ℚ) ^ (-65 : ℤ) ≤ s := by
    obtain ⟨w, hw⟩ : ∃ w : ℚ, w = (2 : ℚ) ^ (-65 : ℤ) := ⟨_, rfl⟩
    have e : w * 18446744073709551616 = 1 / 2 := by rw [hw]; norm_num
    have h1 : w * N ≤ w * 18446744073709551616 :=
      mul_le_mul_of_nonneg_left hN2 (by rw [hw]; exact (Binary64.two_zpow_pos _).le)
    have h2 : w * N ≤ s * N := by linarith only [h1, e, hx'.1, hR]
    rw [← hw]
    exact le_of_mul_le_mul_right h2 hN0
  -- the sum 1.0 + step
  have hA0 : (0 : ℚ) ≤ 1 + s := by linarith
  have hAfin : Dbl.add (Dbl.fin 1) (Dbl.fin s) = Dbl.fin (Binary64.rnd (1 + s)) := by
    show Dbl.round (1 + s) = _
    exact Dbl.round_of_bounds hA0 (by rw [hp64]; linarith)
  have eA := abs_le.mp (Binary64.rnd_relerr (x := 1 + s)
    (hmin.trans ((by norm_num : (2 : ℚ) ^ (-70 : ℤ) ≤ 1).trans (by linarith only [h0]))))
  rw [← hu] at eA
  obtain ⟨A, hA⟩ : ∃ A : ℚ, A = Binary64.rnd (1 + s) := ⟨_, rfl⟩
  rw [← hA] at eA hAfin
  have hA1 : (1 + s) * (1 - u) ≤ A := by linarith only [eA.1]
  have hA2 : A ≤ (1 + s) * (1 + u) := by linarith only [eA.2]
  have hApos : 0 < A :=
    lt_of_lt_of_le (mul_pos (by linarith only [h0]) (by linarith only [hu1])) hA1
  have hA4 : A ≤ 4 := by
    have : (1 + s) * u ≤ 3 * (1 / 16) := by
      have a1 : (1 + s) * u ≤ 3 * u := mul_le_mul_of_nonneg_right (by linarith only [hs2]) hu0.le
      linarith only [a1, hu1]
    linarith only [hA2, this, hs2]
  have hAone : 1 / 2 ≤ A := by
    have : (1 + s) * u ≤ 3 * (1 / 16) := by
      have a1 : (1 + s) * u ≤ 3 * u := mul_le_mul_of_nonneg_right (by linarith only [hs2]) hu0.le
      linarith only [a1, hu1]
    linarith only [hA1, this, h0]
  -- the quotient step / (1.0 + step)
  have hq0 : 0 < s / A := div_pos h0 hApos
  have hq4 : s / A ≤ 4 := by
    rw [div_le_iff₀ hApos]
    linarith only [hs2, hAone]
  have hqlow : (2 : ℚ) ^ (-1022 : ℤ) ≤ s / A := by
    refine hmin.trans ?_
    rw [le_div_iff₀ hApos]
    have e : (2 : ℚ) ^ (-70 : ℤ) * 4 ≤ (2 : ℚ) ^ (-65 : ℤ) := by norm_num
    have := mul_le_mul_of_nonneg_left hA4 (Binary64.two_zpow_pos (-70)).le
    exact this.trans (e.trans hslow)
  have hSfin : Dbl.div (Dbl.fin s) (Dbl.fin A) = Dbl.fin (Binary64.rnd (s / A)) := by
    show (if A = 0 then _ else Dbl.round (s / A)) = _
    rw [if_neg hApos.ne']
    exact Dbl.round_of_bounds hq0.le (by rw [hp64]; linarith)
  have eq := abs_le.mp (Binary64.rnd_relerr hqlow)
  rw [← hu] at eq
  have ht1 : s / A * (1 - u) ≤ Binary64.rnd (s / A) := by linarith only [eq.1]
  have ht2 : Binary64.rnd (s / A) ≤ s / A * (1 + u) := by linarith only [eq.2]
  have hstep : c.add_step.step = Dbl.fin (Binary64.rnd (s / A)) := by
    show Dbl.div c.step (Dbl.add (Dbl.fin 1) c.step) = _
    rw [hs, hAfin, hSfin]
  refine ⟨_, hstep, Binary64.isDouble_rnd hq0.le,
    lt_of_lt_of_le (mul_pos hq0 (by linarith only [hu1])) ht1, ?_⟩
  rw [← hu]
  exact Binary64.growth_relerr hu0 hu1 h0 hN0 hR0 hR hx hA1 hA2 ht1 ht2

/-- The step of a new counter of `1 ≤ T < 2^63` steps: a positive binary64
value which, times `T`, is within `3 * 2^-53` of `1`. -/
theorem Counter.init_relerr (T : ℤ) (h1 : 1 ≤ T) (h2 : T < 2 ^ 63) :
    ∃ s : ℚ, (Counter.init T).step = Dbl.fin s ∧ Binary64.IsDouble s ∧ 0 < s ∧
      |s * (T : ℚ) - 1| ≤ 3 * (2 : ℚ) ^ (-53 : ℤ) := by
  have hp64 : (2 : ℚ) ^ (64 : ℤ) = 18446744073709551616 := by norm_num
  obtain ⟨u, hu⟩ : ∃ u : ℚ, u = (2 : ℚ) ^ (-53 : ℤ) := ⟨_, rfl⟩
  have hu0 : (0 : ℚ) < u := by rw [hu]; exact Binary64.two_zpow_pos _
  have hu1 : u ≤ 1 / 16 := by rw [hu]; norm_num
  have hmin : (2 : ℚ) ^ (-1022 : ℤ) ≤ (2 : ℚ) ^ (-70 : ℤ) :=
    zpow_le_zpow_right₀ (by norm_num) (by norm_num)
  have h70 : (2 : ℚ) ^ (-70 : ℤ) ≤ 1 := by norm_num
  have hT1 : (1 : ℚ) ≤ (T : ℚ) := by exact_mod_cast h1
  have hT2 : (T : ℚ) ≤ 9223372036854775808 := by
    have : (T : ℚ) < (((2 : ℤ) ^ 63 : ℤ) : ℚ) := by exact_mod_cast h2
    norm_num at this; exact this.le
  have hT0 : (0 : ℚ) < (T : ℚ) := by linarith
  have hCfin : Dbl.ofInt T = Dbl.fin (Binary64.rnd (T : ℚ)) :=
    Dbl.round_of_bounds hT0.le (by rw [hp64]; linarith)
  have eC := abs_le.mp (Binary64.rnd_relerr (x := (T : ℚ)) (hmin.trans (h70.trans hT1)))
  rw [← hu] at eC
  obtain ⟨C, hC⟩ : ∃ C : ℚ, C = Binary64.rnd (T : ℚ) := ⟨_, rfl⟩
  rw [← hC] at eC hCfin
  have hC1 : (T : ℚ) * (1 - u) ≤ C := by linarith only [eC.1]
  have hC2 : C ≤ (T : ℚ) * (1 + u) := by linarith only [eC.2]
  have hCpos : 0 < C := lt_of_lt_of_le (mul_pos hT0 (by linarith only [hu1])) hC1
  have hChalf : 1 / 2 ≤ C := by
    have : (1 : ℚ) * (1 - u) ≤ (T : ℚ) * (1 - u) :=
      mul_le_mul_of_nonneg_right hT1 (by linarith only [hu1])
    linarith only [this, hC1, hu1]
  have hCbig : C ≤ (2 : ℚ) ^ (64 : ℤ) := by
    rw [hp64]
    have : (T : ℚ) * u ≤ 9223372036854775808 * (1 / 16) := by
      calc (T : ℚ) * u ≤ 9223372036854775808 * u := mul_le_mul_of_nonneg_right hT2 hu0.le
        _ ≤ 9223372036854775808 * (1 / 16) := mul_le_mul_of_nonneg_left hu1 (by norm_num)
    linarith only [this, hC2, hT2]
  have hq0 : 0 < 1 / C := div_pos one_pos hCpos
  have hq2 : 1 / C ≤ 2 := by
    rw [div_le_iff₀ hCpos]; linarith only [hChalf]
  have hqlow : (2 : ℚ) ^ (-1022 : ℤ) ≤ 1 / C := by
    refine hmin.trans ?_
    rw [le_div_iff₀ hCpos]
    have e : (2 : ℚ) ^ (-70 : ℤ) * (2 : ℚ) ^ (64 : ℤ) ≤ 1 := by norm_num
    have := mul_le_mul_of_nonneg_left hCbig (Binary64.two_zpow_pos (-70)).le
    exact this.trans e
  have hstep : (Counter.init T).step = Dbl.fin (Binary64.rnd (1 / C)) := by
    show Dbl.div (Dbl.fin 1) (Dbl.ofInt T) = _
    rw [hCfin]
    show (if C = 0 then _ else Dbl.round (1 / C)) = _
    rw [if_neg hCpos.ne']
    exact Dbl.round_of_bounds hq0.le (by rw [hp64]; linarith)
  have eq := abs_le.mp (Binary64.rnd_relerr hqlow)
  rw [← hu] at eq
  obtain ⟨s, hsdef⟩ : ∃ s : ℚ, s = Binary64.rnd (1 / C) := ⟨_, rfl⟩
  rw [← hsdef] at eq hstep
  have hs1 : 1 / C * (1 - u) ≤ s := by linarith only [eq.1]
  have hs2 : s ≤ 1 / C * (1 + u) := by linarith only [eq.2]
  have hspos : 0 < s := lt_of_lt_of_le (mul_pos hq0 (by linarith only [hu1])) hs1
  have hsC1 : 1 - u ≤ s * C := by
    have := mul_le_mul_of_nonneg_right hs1 hCpos.le
    have e : 1 / C * (1 - u) * C = 1 - u := by field_simp
    rw [e] at this; exact this
  have hsC2 : s * C ≤ 1 + u := by
    have := mul_le_mul_of_nonneg_right hs2 hCpos.le
    have e : 1 / C * (1 + u) * C = 1 + u := by field_simp
    rw [e] at this; exact this
  have huu : u * u ≤ u * (1 / 16) := mul_le_mul_of_nonneg_left hu1 hu0.le
  have huu0 : 0 ≤ u * u := mul_nonneg hu0.le hu0.le
  refine ⟨s, hstep, ?_, hspos, ?_⟩
  · rw [hsdef]; exact Binary64.isDouble_rnd hq0.le
  rw [← hu, abs_le]
  constructor
  · -- s * T * (1 + u) ≥ s * C ≥ 1 - u
    have c1 : s * C ≤ s * ((T : ℚ) * (1 + u)) := mul_le_mul_of_nonneg_left hC2 hspos.le
    have c2 : (1 - 3 * u) * (1 + u) ≤ s * (T : ℚ) * (1 + u) := by
      linarith only [c1, hsC1, huu0, hu0]
    have := le_of_mul_le_mul_right c2 (by linarith only [hu0] : (0 : ℚ) < 1 + u)
    linarith only [this]
  · have c1 : s * ((T : ℚ) * (1 - u)) ≤ s * C := mul_le_mul_of_nonneg_left hC1 hspos.le
    have c2 : s * (T : ℚ) * (1 - u) ≤ (1 + 3 * u) * (1 - u) := by
      linarith only [c1, hsC2, huu, hu0]
    have := le_of_mul_le_mul_right c2 (by linarith only [hu1] : (0 : ℚ) < 1 - u)
    linarith only [this]

end Progress

namespace Progress

theorem Counter.iterate_add_step_count (c : Counter) :
    ∀ n : ℕ, (Counter.add_step^[n] c).count = c.count := by
  intro n
  induction n with
  | zero => rfl
  | succ n ih => rw [Function.iterate_succ_apply']; exact ih

/-- The step after `n` calls of `add_step` depends on the step only. -/
theorem Counter.iterate_add_step_congr (c d : Counter) (h : c.step = d.step) :
    ∀ n : ℕ, (Counter.add_step^[n] c).step = (Counter.add_step^[n] d).step := by
  intro n
  induction n with
  | zero => exact h
  | succ n ih =>
    rw [Function.iterate_succ_apply', Function.iterate_succ_apply']
    show Dbl.div _ (Dbl.add (Dbl.fin 1) _) = Dbl.div _ (Dbl.add (Dbl.fin 1) _)
    rw [ih]

/-- Advances and growth events act on different fields: after any sequence of
calls the count has grown by the number of advances, and the step is the one
that the growth events alone produce. -/
theorem Counter.run_count_step : ∀ (ops : List CounterOp) (c : Counter),
    (c.run ops).count = c.count + ops.count CounterOp.advance ∧
    (c.run ops).step = (Counter.add_step^[ops.count CounterOp.grow] c).step := by
  intro ops
  induction ops with
  | nil => intro c; exact ⟨rfl, rfl⟩
  | cons op ops ih =>
    intro c
    have hrun : c.run (op :: ops) = (c.apply op).run ops := rfl
    rw [hrun]
    obtain ⟨i1, i2⟩ := ih (c.apply op)
    cases op with
    | advance =>
      refine ⟨?_, ?_⟩
      · rw [i1]
        show c.count + 1 + _ = _
        simp [List.count_cons]; omega
      · rw [i2]
        simp only [List.count_cons]
        simp only [reduceCtorEq, beq_iff_eq, if_false, Nat.add_zero]
        exact Counter.iterate_add_step_congr (c.apply CounterOp.advance) c rfl _
    | grow =>
      refine ⟨?_, ?_⟩
      · rw [i1]
        show c.count + _ = _
        simp [List.count_cons]
      · rw [i2]
        simp only [List.count_cons]
        simp only [beq_self_eq_true, if_true]
        rw [Function.iterate_succ_apply]
        rfl

/-- The step of a counter of `1 ≤ T < 2^63` steps after `g ≤ 2^48` calls of
`add_step`: a positive binary64 value which, times `T + g`, is within
`(3g + 3) * 2^-53` of `1`. -/
theorem Counter.grow_relerr (T : ℤ) (h1 : 1 ≤ T) (h2 : T < 2 ^ 63) :
    ∀ g : ℕ, g ≤ 2 ^ 48 →
      ∃ s : ℚ, (Counter.add_step^[g] (Counter.init T)).step = Dbl.fin s ∧
        Binary64.IsDouble s ∧ 0 < s ∧
        |s * ((T : ℚ) + (g : ℚ)) - 1| ≤ (3 * (g : ℚ) + 3) * (2 : ℚ) ^ (-53 : ℤ) := by
  have hT1 : (1 : ℚ) ≤ (T : ℚ) := by exact_mod_cast h1
  have hT2 : (T : ℚ) ≤ 9223372036854775808 := by
    have : (T : ℚ) < (((2 : ℤ) ^ 63 : ℤ) : ℚ) := by exact_mod_cast h2
    norm_num at this; exact this.le
  intro g
  induction g with
  | zero =>
    intro _
    obtain ⟨s, a, b, c, d⟩ := Counter.init_relerr T h1 h2
    refine ⟨s, a, b, c, ?_⟩
    simpa using d
  | succ g ih =>
    intro hg
    obtain ⟨s, a, b, c, d⟩ := ih (by omega)
    have hgq : (g : ℚ) ≤ 281474976710656 := by
      have h : (g : ℚ) ≤ (2 : ℚ) ^ (48 : ℕ) := by exact_mod_cast (by omega : g ≤ 2 ^ 48)
      have e : (2 : ℚ) ^ (48 : ℕ) = 281474976710656 := by norm_num
      rw [e] at h; exact h
    have hg0 : (0 : ℚ) ≤ (g : ℚ) := Nat.cast_nonneg g
    obtain ⟨u, hu⟩ : ∃ u : ℚ, u = (2 : ℚ) ^ (-53 : ℤ) := ⟨_, rfl⟩
    have hu0 : (0 : ℚ) < u := by rw [hu]; exact Binary64.two_zpow_pos _
    have hR : (3 * (g : ℚ) + 3) * u ≤ 1 / 8 := by
      have e : (3 * (281474976710656 : ℚ) + 3) * u ≤ 1 / 8 := by rw [hu]; norm_num
      have := mul_le_mul_of_nonneg_right
        (by linarith only [hgq] : 3 * (g : ℚ) + 3 ≤ 3 * (281474976710656 : ℚ) + 3) hu0.le
      exact this.trans e
    rw [← hu] at d
    obtain ⟨t, a', b', c', d'⟩ := Counter.add_step_relerr (Counter.add_step^[g] (Counter.init T))
      s ((T : ℚ) + (g : ℚ)) ((3 * (g : ℚ) + 3) * u) a c (by linarith only [hT1, hg0])
      (by norm_num; linarith only [hT2, hgq]) (mul_nonneg (by linarith only [hg0]) hu0.le) hR d
    rw [← hu] at d'
    refine ⟨t, ?_, b', c', ?_⟩
    · rw [Function.iterate_succ_apply']; exact a'
    · rw [← hu]
      push_cast
      have e1 : (T : ℚ) + ((g : ℚ) + 1) = (T : ℚ) + (g : ℚ) + 1 := by ring
      have e2 : (3 * ((g : ℚ) + 1) + 3) * u = (3 * (g : ℚ) + 3) * u + 3 * u := by ring
      rw [e1, e2]; exact d'

end Progress

/-- C3 (as amended): for `1 ≤ N ≤ 2^64`, a counter whose step is `1/N` has after
`add_step` the same count and a step that is a positive binary64 value within
`3 * 2^-53 / (N + 1)` of `1 / (N + 1)`.  Consequently a counter constructed with
a total `1 ≤ T < 2^63` and then given any sequence of calls made of `g ≤ 2^48`
calls of `add_step` and `k` advances, in any order, has count `k` and the step
that the `g` calls of `add_step` alone produce; that step is a positive
binary64 value within `(3g + 3) * 2^-53 / (T + g)` of `1 / (T + g)`, and for
`k < 2^53` the value is within `(3g + 5) * 2^-53 * (k / (T + g))` of
`k / (T + g)`. -/
theorem add_step_tracks_total (T : ℤ) (ops : List CounterOp) (g k : ℕ)
    (h1 : 1 ≤ T) (h2 : T < 2 ^ 63)
    (hgc : ops.count CounterOp.grow = g) (hkc : ops.count CounterOp.advance = k)
    (hg : g ≤ 2 ^ 48) :
    (∀ (c : Counter) (N : ℚ), 1 ≤ N → N ≤ (2 : ℚ) ^ (64 : ℤ) → c.get_step = Dbl.fin (1 / N) →
      ∃ t : ℚ, c.add_step.get_step = Dbl.fin t ∧ Binary64.IsDouble t ∧ 0 < t ∧
        c.add_step.count = c.count ∧
        |t - 1 / (N + 1)| ≤ 3 * (2 : ℚ) ^ (-53 : ℤ) / (N + 1)) ∧
    ((Counter.init T).run ops).count = k ∧
    ((Counter.init T).run ops).get_step
      = (Counter.add_step^[g] (Counter.init T)).get_step ∧
    ∃ s : ℚ, ((Counter.init T).run ops).get_step = Dbl.fin s ∧ Binary64.IsDouble s ∧ 0 < s ∧
      |s - 1 / ((T : ℚ) + (g : ℚ))|
        ≤ (3 * (g : ℚ) + 3) * (2 : ℚ) ^ (-53 : ℤ) / ((T : ℚ) + (g : ℚ)) ∧
      (k < 2 ^ 53 → ∃ v : ℚ, ((Counter.init T).run ops).toDouble = Dbl.fin v ∧
        |v - (k : ℚ) / ((T : ℚ) + (g : ℚ))|
          ≤ (3 * (g : ℚ) + 5) * (2 : ℚ) ^ (-53 : ℤ) * ((k : ℚ) / ((T : ℚ) + (g : ℚ)))) := by
  have hone : ∀ (c : Counter) (N : ℚ), 1 ≤ N → N ≤ (2 : ℚ) ^ (64 : ℤ) →
      c.get_step = Dbl.fin (1 / N) →
      ∃ t : ℚ, c.add_step.get_step = Dbl.fin t ∧ Binary64.IsDouble t ∧ 0 < t ∧
        c.add_step.count = c.count ∧
        |t - 1 / (N + 1)| ≤ 3 * (2 : ℚ) ^ (-53 : ℤ) / (N + 1) := by
    intro c N hN1 hN2 hc
    have hN0 : 0 < N := by linarith only [hN1]
    have hN10 : 0 < N + 1 := by linarith only [hN1]
    have hx : |1 / N * N - 1| ≤ 0 := by
      rw [one_div, inv_mul_cancel₀ hN0.ne', sub_self, abs_zero]
    obtain ⟨t, a, b, c', d⟩ := Counter.add_step_relerr c (1 / N) N 0 hc
      (div_pos one_pos hN0) hN1 hN2 (le_refl _) (by norm_num) hx
    refine ⟨t, a, b, c', rfl, ?_⟩
    have e : t - 1 / (N + 1) = (t * (N + 1) - 1) / (N + 1) := by field_simp
    rw [e, abs_div, abs_of_pos hN10]
    rw [zero_add] at d
    exact div_le_div_of_nonneg_right d hN10.le
  refine ⟨hone, ?_⟩
  have hp64 : (2 : ℚ) ^ (64 : ℤ) = 18446744073709551616 := by norm_num
  obtain ⟨r1, r2⟩ := Counter.run_count_step ops (Counter.init T)
  rw [hkc] at r1
  rw [hgc] at r2
  have hcount : ((Counter.init T).run ops).count = k := by
    rw [r1]; show 0 + k = k; omega
  obtain ⟨s, a, b, c, d⟩ := Counter.grow_relerr T h1 h2 g hg
  have hstep : ((Counter.init T).run ops).step = Dbl.fin s := by rw [r2, a]
  have hT1 : (1 : ℚ) ≤ (T : ℚ) := by exact_mod_cast h1
  have hg0 : (0 : ℚ) ≤ (g : ℚ) := Nat.cast_nonneg g
  have hgq : (g : ℚ) ≤ 281474976710656 := by
    have h : (g : ℚ) ≤ (2 : ℚ) ^ (48 : ℕ) := by exact_mod_cast hg
    have e : (2 : ℚ) ^ (48 : ℕ) = 281474976710656 := by norm_num
    rw [e] at h; exact h
  obtain ⟨N, hN⟩ : ∃ N : ℚ, N = (T : ℚ) + (g : ℚ) := ⟨_, rfl⟩
  rw [← hN] at d ⊢
  have hN1 : 1 ≤ N := by rw [hN]; linarith only [hT1, hg0]
  have hN0 : 0 < N := by linarith only [hN1]
  obtain ⟨u, hu⟩ : ∃ u : ℚ, u = (2 : ℚ) ^ (-53 : ℤ) := ⟨_, rfl⟩
  have hu0 : (0 : ℚ) < u := by rw [hu]; exact Binary64.two_zpow_pos _
  have hu1 : u ≤ 1 / 16 := by rw [hu]; norm_num
  rw [← hu] at d ⊢
  obtain ⟨R, hRdef⟩ : ∃ R : ℚ, R = (3 * (g : ℚ) + 3) * u := ⟨_, rfl⟩
  have hR0 : 0 ≤ R := by rw [hRdef]; exact mul_nonneg (by linarith only [hg0]) hu0.le
  have hR : R ≤ 1 / 8 := by
    have e : (3 * (281474976710656 : ℚ) + 3) * u ≤ 1 / 8 := by rw [hu]; norm_num
    have := mul_le_mul_of_nonneg_right
      (by linarith only [hgq] : 3 * (g : ℚ) + 3 ≤ 3 * (281474976710656 : ℚ) + 3) hu0.le
    rw [hRdef]; exact this.trans e
  rw [← hRdef] at d ⊢
  have hx := abs_le.mp d
  have hs2 : s ≤ 2 := by
    have : s * 1 ≤ s * N := mul_le_mul_of_nonneg_left hN1 c.le
    linarith only [this, hx.2, hR]
  refine ⟨hcount, ?_, s, hstep, b, c, ?_, ?_⟩
  · show ((Counter.init T).run ops).step = (Counter.add_step^[g] (Counter.init T)).step
    exact r2
  · have e : s - 1 / N = (s * N - 1) / N := by field_simp
    rw [e, abs_div, abs_of_pos hN0]
    exact div_le_div_of_nonneg_right d hN0.le
  · intro hk
    have hkq0 : (0 : ℚ) ≤ (k : ℚ) := Nat.cast_nonneg k
    have hkq : (k : ℚ) ≤ 9007199254740992 := by
      have h : (k : ℚ) ≤ (2 : ℚ) ^ (53 : ℕ) := by exact_mod_cast hk.le
      have e : (2 : ℚ) ^ (53 : ℕ) = 9007199254740992 := by norm_num
      rw [e] at h; exact h
    have hCfin : Dbl.ofInt ((k : ℕ) : ℤ) = Dbl.fin (k : ℚ) := by
      unfold Dbl.ofInt
      rw [Int.cast_natCast, Dbl.round_of_bounds hkq0 (by rw [hp64]; linarith only [hkq]),
        Binary64.rnd_natCast k hk]
    have hks0 : 0 ≤ (k : ℚ) * s := mul_nonneg hkq0 c.le
    have hksb : (k : ℚ) * s ≤ (2 : ℚ) ^ (64 : ℤ) := by
      rw [hp64]
      have := mul_le_mul hkq hs2 c.le (by norm_num : (0 : ℚ) ≤ 9007199254740992)
      linarith only [this]
    have hVfin : ((Counter.init T).run ops).toDouble = Dbl.fin (Binary64.rnd ((k : ℚ) * s)) := by
      show Dbl.mul (Dbl.ofInt (((Counter.init T).run ops).count : ℤ))
        ((Counter.init T).run ops).step = _
      rw [hcount, hstep, hCfin]
      show Dbl.round ((k : ℚ) * s) = _
      exact Dbl.round_of_bounds hks0 hksb
    refine ⟨_, hVfin, ?_⟩
    rcases Nat.eq_zero_or_pos k with hk0 | hkpos
    · subst hk0
      simp [Binary64.rnd_zero]
    · have hk1 : (1 : ℚ) ≤ (k : ℚ) := by exact_mod_cast hkpos
      -- the product is in the normal range
      have hslow : (2 : ℚ) ^ (-1022 : ℤ) ≤ s := by
        have hmin : (2 : ℚ) ^ (-1022 : ℤ) ≤ (2 : ℚ) ^ (-65 : ℤ) :=
          zpow_le_zpow_right₀ (by norm_num) (by norm_num)
        refine hmin.trans ?_
        obtain ⟨w, hw⟩ : ∃ w : ℚ, w = (2 : ℚ) ^ (-65 : ℤ) := ⟨_, rfl⟩
        have e : w * 18446744073709551616 = 1 / 2 := by rw [hw]; norm_num
        have hNb : N ≤ 18446744073709551616 := by
          have hT2 : (T : ℚ) ≤ 9223372036854775808 := by
            have : (T : ℚ) < (((2 : ℤ) ^ 63 : ℤ) : ℚ) := by exact_mod_cast h2
            norm_num at this; exact this.le
          rw [hN]; linarith only [hT2, hgq]
        have h1' : w * N ≤ w * 18446744073709551616 :=
          mul_le_mul_of_nonneg_left hNb (by rw [hw]; exact (Binary64.two_zpow_pos _).le)
        have h2' : w * N ≤ s * N := by linarith only [h1', e, hx.1, hR]
        rw [← hw]
        exact le_of_mul_le_mul_right h2' hN0
      have hks : (2 : ℚ) ^ (-1022 : ℤ) ≤ (k : ℚ) * s :=
        hslow.trans (le_mul_of_one_le_left c.le hk1)
      have ev := abs_le.mp (Binary64.rnd_relerr hks)
      rw [← hu] at ev
      obtain ⟨v, hv⟩ : ∃ v : ℚ, v = Binary64.rnd ((k : ℚ) * s) := ⟨_, rfl⟩
      rw [← hv] at ev ⊢
      have e : v - (k : ℚ) / N = (v * N - (k : ℚ)) / N := by field_simp
      have e' : (3 * (g : ℚ) + 5) * u * ((k : ℚ) / N) = ((R + 2 * u) * (k : ℚ)) / N := by
        rw [hRdef]; ring
      rw [e, e', abs_div, abs_of_pos hN0]
      refine div_le_div_of_nonneg_right ?_ hN0.le
      -- |v * N - k| ≤ (R + 2u) * k
      have hsN1 : s * N ≤ 1 + R := by linarith only [hx.2]
      have hsN0 : 1 - R ≤ s * N := by linarith only [hx.1]
      have hkx2 : (k : ℚ) * (s * N) ≤ (k : ℚ) * (1 + R) := mul_le_mul_of_nonneg_left hsN1 hkq0
      have hkx1 : (k : ℚ) * (1 - R) ≤ (k : ℚ) * (s * N) := mul_le_mul_of_nonneg_left hsN0 hkq0
      have hvN1 : ((k : ℚ) * s - (k : ℚ) * s * u) * N ≤ v * N :=
        mul_le_mul_of_nonneg_right (by linarith only [ev.1]) hN0.le
      have hvN2 : v * N ≤ ((k : ℚ) * s + (k : ℚ) * s * u) * N :=
        mul_le_mul_of_nonneg_right (by linarith only [ev.2]) hN0.le
      have hux2 : (k : ℚ) * (s * N) * u ≤ (k : ℚ) * (1 + R) * u :=
        mul_le_mul_of_nonneg_right hkx2 hu0.le
      have hkRu : (k : ℚ) * R * u ≤ (k : ℚ) * (1 / 8) * u :=
        mul_le_mul_of_nonneg_right (mul_le_mul_of_nonneg_left hR hkq0) hu0.le
      have hku0 : 0 ≤ (k : ℚ) * u := mul_nonneg hkq0 hu0.le
      have hkxu0 : 0 ≤ (k : ℚ) * (s * N) * u :=
        mul_nonneg (mul_nonneg hkq0 (mul_nonneg c.le hN0.le)) hu0.le
      rw [abs_le]
      constructor
      · linarith only [hvN1, hkx1, hux2, hkRu, hku0]
      · linarith only [hvN2, hkx2, hux2, hkRu, hku0]

/-- C3 (witness): the amended statement for a counter of one step given the
calls `add_step, ++, add_step, ++`: count 2, and the step of two growth events,
within `9 * 2^-53 / 3` of `1/3`. -/
theorem add_step_tracks_total_witness :
    ((1 : ℤ) ≤ 1 ∧ (1 : ℤ) < 2 ^ 63 ∧
      [CounterOp.grow, CounterOp.advance, CounterOp.grow, CounterOp.advance].count
        CounterOp.grow = 2 ∧
      [CounterOp.grow, CounterOp.advance, CounterOp.grow, CounterOp.advance].count
        CounterOp.advance = 2 ∧
      2 ≤ 2 ^ 48) ∧
    (∀ (c : Counter) (N : ℚ), 1 ≤ N → N ≤ (2 : ℚ) ^ (64 : ℤ) → c.get_step = Dbl.fin (1 / N) →
      ∃ t : ℚ, c.add_step.get_step = Dbl.fin t ∧ Binary64.IsDouble t ∧ 0 < t ∧
        c.add_step.count = c.count ∧
        |t - 1 / (N + 1)| ≤ 3 * (2 : ℚ) ^ (-53 : ℤ) / (N + 1)) ∧
    ((Counter.init 1).run
        [CounterOp.grow, CounterOp.advance, CounterOp.grow, CounterOp.advance]).count = 2 ∧
    ((Counter.init 1).run
        [CounterOp.grow, CounterOp.advance, CounterOp.grow, CounterOp.advance]).get_step
      = (Counter.add_step^[2] (Counter.init 1)).get_step ∧
    ∃ s : ℚ, ((Counter.init 1).run
        [CounterOp.grow, CounterOp.advance, CounterOp.grow, CounterOp.advance]).get_step
          = Dbl.fin s ∧ Binary64.IsDouble s ∧ 0 < s ∧
      |s - 1 / (((1 : ℤ) : ℚ) + ((2 : ℕ) : ℚ))|
        ≤ (3 * ((2 : ℕ) : ℚ) + 3) * (2 : ℚ) ^ (-53 : ℤ) / (((1 : ℤ) : ℚ) + ((2 : ℕ) : ℚ)) ∧
      (2 < 2 ^ 53 → ∃ v : ℚ, ((Counter.init 1).run
          [CounterOp.grow, CounterOp.advance, CounterOp.grow, CounterOp.advance]).toDouble
            = Dbl.fin v ∧
        |v - ((2 : ℕ) : ℚ) / (((1 : ℤ) : ℚ) + ((2 : ℕ) : ℚ))|
          ≤ (3 * ((2 : ℕ) : ℚ) + 5) * (2 : ℚ) ^ (-53 : ℤ)
            * (((2 : ℕ) : ℚ) / (((1 : ℤ) : ℚ) + ((2 : ℕ) : ℚ)))) :=
  ⟨⟨by decide, by decide, by decide, by decide, by decide⟩,
    add_step_tracks_total 1
      [CounterOp.grow, CounterOp.advance, CounterOp.grow, CounterOp.advance] 2 2
      (by decide) (by decide) (by decide) (by decide) (by decide)⟩
